import Mathlib

/-!
Verification of the autocereal reflected-serialization engine.

This development shallowly embeds the engine of `fr/autocereal/autocereal.h`
(the reflection-driven save/load traversal built on top of the cereal
archive library).  A reflected class is represented by its `TypeDesc`
(ordered field names plus ordered direct bases, exactly the data the
reflection provider yields), and an object of such a class by an `Inst`
(field values plus base subobjects).  The compile-time failures of the
source (consteval asserts in `classMemberNames`, the `static_assert`s in
`saveHelper` / `loadHelper`, and an out-of-range base index) are modelled
as `Except` errors, so that a build-rejected instantiation is an `error`
value rather than a Lean-level partial function.

The archive backends (binary, JSON, XML) are cereal code, external to the
repository; they are modelled from the spec as faithful transports of the
engine's (name, value) event stream: the text backends persist the named
events, the binary backend persists the values only, and every input
archive hands values back positionally in stream order.
-/

set_option maxHeartbeats 1000000
set_option maxRecDepth 4000
set_option linter.unusedVariables false

namespace AutoCereal

/-- A serialized field value.  The engine is generic in the field type; two
scalar shapes (integers and strings) are enough to express every claim. -/
inductive Value where
  | vint (n : Int) : Value
  | vstr (s : String) : Value
deriving DecidableEq, Repr, Inhabited

/-- The structural shape of one reflected class: its direct field names in
declaration order (`nonstatic_data_members_of`) and its direct bases in
declaration order (`bases_of`).  This is the data `ClassSingleton` caches. -/
inductive TypeDesc where
  | mk (fieldNames : List String) (bases : List TypeDesc) : TypeDesc
deriving Repr, Inhabited

/-- Field names of a descriptor, in declaration order. -/
def TypeDesc.fieldNames : TypeDesc → List String
  | .mk ns _ => ns

/-- Direct bases of a descriptor, in declaration order. -/
def TypeDesc.bases : TypeDesc → List TypeDesc
  | .mk _ bs => bs

/-- `ClassSingleton::memberCount()`: number of direct fields. -/
def TypeDesc.memberCount (d : TypeDesc) : Nat := d.fieldNames.length

/-- `ClassSingleton::baseCount()`: number of direct bases. -/
def TypeDesc.baseCount (d : TypeDesc) : Nat := d.bases.length

/-- An object of a reflected class: its direct field values and its base
subobjects (one per direct base, in the same order as the descriptor). -/
inductive Inst where
  | mk (fields : List Value) (baseObjs : List Inst) : Inst
deriving Repr, Inhabited

/-- Direct field values of an instance. -/
def Inst.fields : Inst → List Value
  | .mk fs _ => fs

/-- Base subobjects of an instance. -/
def Inst.baseObjs : Inst → List Inst
  | .mk _ os => os

/-- Build-time failure modes of the engine.  `ctorFail` is a consteval
assert firing inside `classMemberNames`; `assertFail` is a `static_assert`
in `saveHelper` / `loadHelper` (or an out-of-range base index, which is a
consteval failure at the same traversal point); `streamEnd` is the input
archive running out of data during a load. -/
inductive TErr where
  | assertFail : TErr
  | ctorFail : TErr
  | streamEnd : TErr
deriving DecidableEq, Repr

/-- `MAX_IDENTIFIER_LENGTH` from the header (256). -/
def MAX_IDENTIFIER_LENGTH : Nat := 256

/-- `MAX_CLASS_MEMBERS` from the header (256). -/
def MAX_CLASS_MEMBERS : Nat := 256

/-- The two consteval asserts of `ClassSingleton::classMemberNames`:
`members.size() < MAX_CLASS_MEMBERS - 1` (kept one below the array size so
a null-named sentinel slot always exists) and, per member,
`svName.length() < MAX_IDENTIFIER_LENGTH`. -/
def ctorOk (names : List String) : Bool :=
  decide (names.length < MAX_CLASS_MEMBERS - 1) &&
    names.all (fun n => decide (n.length < MAX_IDENTIFIER_LENGTH))

/-- `ClassSingleton::classMemberNames`: returns the member names (copied
into the fixed-size character table, which preserves them unchanged) when
both consteval asserts pass, and is a build-time failure otherwise. -/
def classMemberNames (names : List String) : Except TErr (List String) :=
  if ctorOk names then .ok names else .error .ctorFail

/-- The `ClassSingleton` constructor re-stringifies the character table at
runtime, walking slots until the first one whose initial character is the
null terminator; names after an empty slot are therefore dropped. -/
def restringify (names : List String) : List String :=
  names.takeWhile (fun n => n ≠ "")

/-- Member names held by the constructed singleton
(`_memberNamesStrings`). -/
def storedNames (names : List String) : List String :=
  restringify names

/-- `ClassSingleton::memberAtIndex`: the stored name at a field ordinal. -/
def memberAtIndex (stored : List String) (idx : Nat) : String :=
  stored.getD idx ""

/-- `member_ref_const`: a const read of the field at an ordinal; it yields
the field's value (the source returns by value) and cannot write. -/
def memberRefConst (v : Inst) (idx : Nat) : Value :=
  v.fields.getD idx (Value.vint 0)

/-- Writing through `member_ref` into the field at an ordinal. -/
def Inst.setField (v : Inst) (idx : Nat) (x : Value) : Inst :=
  .mk (v.fields.set idx x) v.baseObjs

/-- Writing through the `static_cast<Parent&>` view: replacing the base
subobject at a base index. -/
def Inst.setBase (v : Inst) (i : Nat) (b : Inst) : Inst :=
  .mk v.fields (v.baseObjs.set i b)

mutual

/-- `fr::autocereal::saveHelper<Archive, Class, memberCount, index>`:
fetches the class singleton (whose construction may be a build failure),
statically asserts `memberCount() > 0` and `index < memberCount()`, on
field index 0 first saves the parents when there are any, then hands the
field at `index` to the archive as a name-value pair, and recursively
unwinds to the next index while one remains.  The instance is threaded
through the recursion the way the C++ reference parameter is; the emitted
event list is the sequence of `ar(make_nvp(...))` calls. -/
def saveHelper (d : TypeDesc) (v : Inst) (idx : Nat) :
    Except TErr (Inst × List (String × Value)) :=
  if ctorOk d.fieldNames = false then .error .ctorFail
  else if hc : 0 < d.memberCount ∧ idx < d.memberCount then
    match (if idx = 0 ∧ 0 < d.baseCount then saveParents d v 0 else .ok (v, [])) with
    | .error e => .error e
    | .ok (v1, evs1) =>
      if hr : idx + 1 < d.memberCount then
        match saveHelper d v1 (idx + 1) with
        | .error e => .error e
        | .ok (v2, evs2) =>
          .ok (v2, evs1 ++ (memberAtIndex (storedNames d.fieldNames) idx,
            memberRefConst v1 idx) :: evs2)
      else
        .ok (v1, evs1 ++ [(memberAtIndex (storedNames d.fieldNames) idx,
          memberRefConst v1 idx)])
  else .error .assertFail
termination_by (sizeOf d, 1, d.memberCount - idx)
decreasing_by
  all_goals first
    | exact Prod.Lex.right _ (Prod.Lex.left _ _ (by omega))
    | exact Prod.Lex.right _ (Prod.Lex.right _ (by omega))

/-- `fr::autocereal::saveParents<Archive, Class, index>`: fetches the class
and parent singletons, reinterprets the instance as the base at `index`
(an out-of-range index would be rejected at build time, modelled by the
`none` branch), saves that base with the base's own descriptor via
`saveHelper`, and recurses to the next base index while one remains. -/
def saveParents (d : TypeDesc) (v : Inst) (i : Nat) :
    Except TErr (Inst × List (String × Value)) :=
  if ctorOk d.fieldNames = false then .error .ctorFail
  else
    match hb : d.bases.get? i with
    | none => .error .assertFail
    | some parent =>
      if ctorOk parent.fieldNames = false then .error .ctorFail
      else
        match saveHelper parent (v.baseObjs.getD i (Inst.mk [] [])) 0 with
        | .error e => .error e
        | .ok (b1, evs1) =>
          if hr : i + 1 < d.baseCount then
            match saveParents d (v.setBase i b1) (i + 1) with
            | .error e => .error e
            | .ok (v2, evs2) => .ok (v2, evs1 ++ evs2)
          else
            .ok (v.setBase i b1, evs1)
termination_by (sizeOf d, 0, d.baseCount - i)
decreasing_by
  all_goals first
    | exact Prod.Lex.right _ (Prod.Lex.right _ (by omega))
    | · refine Prod.Lex.left _ _ ?goal
        have hmem : parent ∈ d.bases := List.get?_mem hb
        have h1 : sizeOf parent < sizeOf d.bases := List.sizeOf_lt_of_mem hmem
        cases d with
        | mk ns bs => simp [TypeDesc.bases] at h1 ⊢; omega

end

mutual

/-- `fr::autocereal::loadHelper<Archive, Class, memberCount, index>`: the
dual of `saveHelper`.  Same singleton fetch and static asserts; on field
index 0 first loads the parents when there are any; then reads the next
value positionally from the input archive (`ar(ref)`, deliberately without
`make_nvp`) into the field at `index`, and recursively unwinds. -/
def loadHelper (d : TypeDesc) (v : Inst) (idx : Nat) (s : List Value) :
    Except TErr (Inst × List Value) :=
  if ctorOk d.fieldNames = false then .error .ctorFail
  else if hc : 0 < d.memberCount ∧ idx < d.memberCount then
    match (if idx = 0 ∧ 0 < d.baseCount then loadParents d v 0 s else .ok (v, s)) with
    | .error e => .error e
    | .ok (v1, s1) =>
      match s1 with
      | [] => .error .streamEnd
      | x :: rest =>
        if hr : idx + 1 < d.memberCount then
          loadHelper d (v1.setField idx x) (idx + 1) rest
        else
          .ok (v1.setField idx x, rest)
  else .error .assertFail
termination_by (sizeOf d, 1, d.memberCount - idx)
decreasing_by
  all_goals first
    | exact Prod.Lex.right _ (Prod.Lex.left _ _ (by omega))
    | exact Prod.Lex.right _ (Prod.Lex.right _ (by omega))

/-- `fr::autocereal::loadParents<Archive, Class, index>`: the dual of
`saveParents`, loading each base in declaration order through the base's
own descriptor. -/
def loadParents (d : TypeDesc) (v : Inst) (i : Nat) (s : List Value) :
    Except TErr (Inst × List Value) :=
  if ctorOk d.fieldNames = false then .error .ctorFail
  else
    match hb : d.bases.get? i with
    | none => .error .assertFail
    | some parent =>
      if ctorOk parent.fieldNames = false then .error .ctorFail
      else
        match loadHelper parent (v.baseObjs.getD i (Inst.mk [] [])) 0 s with
        | .error e => .error e
        | .ok (b1, s1) =>
          if hr : i + 1 < d.baseCount then
            loadParents d (v.setBase i b1) (i + 1) s1
          else
            .ok (v.setBase i b1, s1)
termination_by (sizeOf d, 0, d.baseCount - i)
decreasing_by
  all_goals first
    | exact Prod.Lex.right _ (Prod.Lex.right _ (by omega))
    | · refine Prod.Lex.left _ _ ?goal
        have hmem : parent ∈ d.bases := List.get?_mem hb
        have h1 : sizeOf parent < sizeOf d.bases := List.sizeOf_lt_of_mem hmem
        cases d with
        | mk ns bs => simp [TypeDesc.bases] at h1 ⊢; omega

end

/-- `cereal::save`: fetches the class singleton and starts the helper
recursion at field index 0. -/
def save (d : TypeDesc) (v : Inst) : Except TErr (Inst × List (String × Value)) :=
  if ctorOk d.fieldNames = false then .error .ctorFail
  else saveHelper d v 0

/-- `cereal::load`: fetches the class singleton and starts the helper
recursion at field index 0. -/
def load (d : TypeDesc) (v : Inst) (s : List Value) : Except TErr (Inst × List Value) :=
  if ctorOk d.fieldNames = false then .error .ctorFail
  else loadHelper d v 0 s

mutual

/-- An instance has the shape its descriptor prescribes: one value per
declared field and one base subobject per declared base, recursively. -/
def shapeOk : TypeDesc → Inst → Bool
  | .mk ns bs, .mk fs os =>
    decide (fs.length = ns.length) && decide (os.length = bs.length) && shapeOkL bs os

/-- Pointwise `shapeOk` across the base lists. -/
def shapeOkL : List TypeDesc → List Inst → Bool
  | [], [] => true
  | _ :: _, [] => false
  | [], _ :: _ => false
  | b :: bs, o :: os => shapeOk b o && shapeOkL bs os

end

mutual

/-- A predicate holds of a descriptor and of every transitive base. -/
def descAll (p : TypeDesc → Bool) : TypeDesc → Bool
  | .mk ns bs => p (.mk ns bs) && descAllL p bs

/-- `descAll` across a base list. -/
def descAllL (p : TypeDesc → Bool) : List TypeDesc → Bool
  | [] => true
  | b :: bs => descAll p b && descAllL p bs

end

/-- Every singleton in the hierarchy constructs: the consteval bounds of
`classMemberNames` hold for the type and for all transitive bases. -/
def validDeep (d : TypeDesc) : Bool :=
  descAll (fun t => ctorOk t.fieldNames) d

/-- The type and every transitive base have at least one direct field, so
every `static_assert(memberCount() > 0)` in the traversal holds. -/
def allPos (d : TypeDesc) : Bool :=
  descAll (fun t => decide (0 < t.memberCount)) d

/-- No declared field name in the hierarchy is the empty string (true of
every C++ identifier); under this the runtime re-stringification keeps
every name. -/
def noEmptyNames (d : TypeDesc) : Bool :=
  descAll (fun t => t.fieldNames.all (fun n => n ≠ "")) d

mutual

/-- Total number of fields an instance of the type carries, its transitive
bases included. -/
def totalFields : TypeDesc → Nat
  | .mk ns bs => totalFieldsL bs + ns.length

/-- Sum of `totalFields` over a base list. -/
def totalFieldsL : List TypeDesc → Nat
  | [] => 0
  | b :: bs => totalFields b + totalFieldsL bs

end

mutual

/-- Specification-level save trace, written from the spec's words: the
bases' traces in declaration order, then the type's own fields in
declaration order, each paired with its declared name.  The engine trace
is proved equal to this. -/
def saveSpec : TypeDesc → Inst → List (String × Value)
  | .mk ns bs, .mk fs os => saveSpecL bs os ++ ns.zip fs

/-- `saveSpec` across the base lists, in declaration order. -/
def saveSpecL : List TypeDesc → List Inst → List (String × Value)
  | [], _ => []
  | _ :: _, [] => []
  | b :: bs, o :: os => saveSpec b o ++ saveSpecL bs os

end

mutual

/-- Number of ancestor levels of a type: 0 with no bases, otherwise one
more than the deepest base. -/
def ancestorLevels : TypeDesc → Nat
  | .mk _ bs => ancestorLevelsL bs

/-- Deepest ancestor-level count over a base list. -/
def ancestorLevelsL : List TypeDesc → Nat
  | [] => 0
  | b :: bs => max (1 + ancestorLevels b) (ancestorLevelsL bs)

end

mutual

/-- Nesting depth of type-level traversal frames below a
`saveHelper`/`loadHelper` invocation at a field index: both helpers make
the same recursive calls (parents at index 0, next index while one
remains), so one instrumentation covers save and load.  A frame for a
base's own traversal contributes one level. -/
def traverseDepthH (d : TypeDesc) (idx : Nat) : Nat :=
  max (if idx = 0 ∧ 0 < d.baseCount then traverseDepthP d 0 else 0)
    (if hr : idx + 1 < d.memberCount then traverseDepthH d (idx + 1) else 0)
termination_by (sizeOf d, 1, d.memberCount - idx)
decreasing_by
  all_goals first
    | exact Prod.Lex.right _ (Prod.Lex.left _ _ (by omega))
    | exact Prod.Lex.right _ (Prod.Lex.right _ (by omega))

/-- Nesting depth contributed by `saveParents`/`loadParents` from a base
index on: each base enters one type-level frame for its own traversal. -/
def traverseDepthP (d : TypeDesc) (i : Nat) : Nat :=
  match hb : d.bases.get? i with
  | none => 0
  | some parent =>
    max (1 + traverseDepthH parent 0)
      (if hr : i + 1 < d.baseCount then traverseDepthP d (i + 1) else 0)
termination_by (sizeOf d, 0, d.baseCount - i)
decreasing_by
  all_goals first
    | exact Prod.Lex.right _ (Prod.Lex.right _ (by omega))
    | · refine Prod.Lex.left _ _ ?goal
        have hmem : parent ∈ d.bases := List.get?_mem hb
        have h1 : sizeOf parent < sizeOf d.bases := List.sizeOf_lt_of_mem hmem
        cases d with
        | mk ns bs => simp [TypeDesc.bases] at h1 ⊢; omega

end

/-- Recursion depth of the traversal engine on a type: the root frame plus
the nesting below it. -/
def engineDepth (d : TypeDesc) : Nat :=
  1 + traverseDepthH d 0

/-- Modelled from the spec: the JSON output archive is cereal code outside
this repository; per the spec it persists each (name, value) event of the
engine in order, nested blocks flattened bases-first.  `to_json(obj,
stream)` constructs the archive on the stream and hands it the object,
which dispatches to `cereal::save`; the serialized document is appended to
whatever the stream already holds. -/
def toJsonStream (d : TypeDesc) (v : Inst) (stream : List (String × Value)) :
    Except TErr (List (String × Value)) :=
  (save d v).map (fun r => stream ++ r.2)

/-- String-bound `to_json(obj)`: writes into a fresh string stream and
returns its contents. -/
def toJsonString (d : TypeDesc) (v : Inst) : Except TErr (List (String × Value)) :=
  toJsonStream d v []

/-- Modelled from the spec: the JSON input archive reads values
positionally, in stream order, when handed a bare reference (no
name-based re-matching); `from_json(obj, stream)` constructs it on the
stream and loads the object through `cereal::load`. -/
def fromJsonStream (d : TypeDesc) (v : Inst) (stream : List (String × Value)) :
    Except TErr Inst :=
  (load d v (stream.map Prod.snd)).map Prod.fst

/-- String-bound `from_json(obj, string)`: wraps the string in a stream and
reads from that. -/
def fromJsonString (d : TypeDesc) (v : Inst) (doc : List (String × Value)) :
    Except TErr Inst :=
  fromJsonStream d v doc

/-- Modelled from the spec: the XML backend, like JSON, persists the named
events in order; `to_xml(obj, stream)`. -/
def toXmlStream (d : TypeDesc) (v : Inst) (stream : List (String × Value)) :
    Except TErr (List (String × Value)) :=
  (save d v).map (fun r => stream ++ r.2)

/-- String-bound `to_xml(obj)`. -/
def toXmlString (d : TypeDesc) (v : Inst) : Except TErr (List (String × Value)) :=
  toXmlStream d v []

/-- Modelled from the spec: the XML input archive also consumes values
positionally; `from_xml(obj, stream)`. -/
def fromXmlStream (d : TypeDesc) (v : Inst) (stream : List (String × Value)) :
    Except TErr Inst :=
  (load d v (stream.map Prod.snd)).map Prod.fst

/-- String-bound `from_xml(obj, string)`. -/
def fromXmlString (d : TypeDesc) (v : Inst) (doc : List (String × Value)) :
    Except TErr Inst :=
  fromXmlStream d v doc

/-- Modelled from the spec: the binary output archive is not
self-describing; field order encodes meaning and no names are persisted. -/
def toBinary (d : TypeDesc) (v : Inst) : Except TErr (List Value) :=
  (save d v).map (fun r => r.2.map Prod.snd)

/-- Modelled from the spec: the binary input archive reads the values
positionally. -/
def fromBinary (d : TypeDesc) (v : Inst) (s : List Value) : Except TErr Inst :=
  (load d v s).map Prod.fst

/-- Process state of the descriptor cache: one constructed singleton (its
stored member-name vector) per type identity, in construction order.  The
reflection provider is a function from type identity to declared field
names. -/
abbrev DescCache : Type := List (Nat × List String)

/-- `ClassSingleton<Class>::instance()`: the function-local static.  A hit
returns the stored singleton and leaves the cache untouched; a miss runs
the constructor (whose consteval asserts may reject the build) and stores
the result.  Returns the descriptor's member names together with the cache
after the call. -/
def instanceLookup (provider : Nat → List String) (cache : DescCache) (t : Nat) :
    Except TErr (List String × DescCache) :=
  match cache.find? (fun e => e.fst == t) with
  | some e => .ok (e.snd, cache)
  | none =>
    match classMemberNames (provider t) with
    | .error e => .error e
    | .ok ns => .ok (storedNames ns, cache ++ [(t, storedNames ns)])

/-- A sequence of `instance()` calls for arbitrary types within one
process run; a build-rejected construction leaves the cache unchanged. -/
def runLookups (provider : Nat → List String) (cache : DescCache) : List Nat → DescCache
  | [] => cache
  | t :: ts =>
    match instanceLookup provider cache t with
    | .error _ => runLookups provider cache ts
    | .ok r => runLookups provider r.2 ts

/-- Modelled from the spec: one event of the shared-reference registry
protocol (cereal's `types/memory.hpp`, outside this repository).  The
first occurrence of an object identity is fully serialized as a payload;
every later occurrence writes only a back-reference token. -/
inductive PtrEvent where
  | payload (v : Value) : PtrEvent
  | backref (id : Nat) : PtrEvent
deriving DecidableEq, Repr

/-- Modelled from the spec: saving one shared-reference field.  `heap`
maps object identities (addresses) to their contents; `reg` is the save
registry, the identities already written, in first-seen order.  A
registered identity emits a back-reference to its registry slot; a new one
emits the full payload and is registered. -/
def saveSharedStep (heap : List Value) (reg : List Nat) (addr : Nat) :
    PtrEvent × List Nat :=
  if addr ∈ reg then (.backref (reg.indexOf addr), reg)
  else (.payload (heap.getD addr (Value.vint 0)), reg ++ [addr])

/-- Modelled from the spec: saving a sequence of shared-reference fields
under one archive's registry. -/
def saveSharedGo (heap : List Value) (reg : List Nat) : List Nat → List PtrEvent
  | [] => []
  | a :: as =>
    let r := saveSharedStep heap reg a
    r.1 :: saveSharedGo heap r.2 as

/-- Modelled from the spec: one save operation over the fields, starting
from the archive's fresh (empty) registry. -/
def saveShared (heap : List Value) (fields : List Nat) : List PtrEvent :=
  saveSharedGo heap [] fields

/-- Modelled from the spec: loading the shared-reference events.  `lreg`
is the load registry (the new address materialized for each payload, in
order); `nheap` is the heap being populated.  A payload allocates a fresh
object and registers its address; a back-reference rewires to the already
materialized address instead of allocating a duplicate.  Returns the
restored field addresses and the final heap. -/
def loadSharedGo (lreg : List Nat) (nheap : List Value) :
    List PtrEvent → List Nat × List Value
  | [] => ([], nheap)
  | .payload v :: es =>
    let addr := nheap.length
    let r := loadSharedGo (lreg ++ [addr]) (nheap ++ [v]) es
    (addr :: r.1, r.2)
  | .backref k :: es =>
    let r := loadSharedGo lreg nheap es
    (lreg.getD k 0 :: r.1, r.2)

/-- Modelled from the spec: one load operation, starting from a fresh
registry and an empty target heap. -/
def loadShared (events : List PtrEvent) : List Nat × List Value :=
  loadSharedGo [] [] events

/-- Whether a shared-reference event carries the full payload. -/
def PtrEvent.isPayload : PtrEvent → Bool
  | .payload _ => true
  | .backref _ => false

/-- How many of the events written for the given field addresses carry the
full payload of the target address `a`. -/
def payloadCountFor (evs : List PtrEvent) (fs : List Nat) (a : Nat) : Nat :=
  (evs.zip fs).countP (fun p => decide (p.2 = a) && p.1.isPayload)

/-- Proof-layer combinator: the instance a partially completed `loadHelper`
run (from field index `idx` on) leaves behind, given the target `v0` it
started from and the source `v` whose saved stream it consumes. -/
def stitch (idx : Nat) (v0 v : Inst) : Inst :=
  .mk (v0.fields.take idx ++ v.fields.drop idx)
    (if idx = 0 then v.baseObjs else v0.baseObjs)

/-- Proof-layer combinator: the instance a partially completed
`loadParents` run (from base index `i` on) leaves behind. -/
def stitchBases (i : Nat) (v0 v : Inst) : Inst :=
  .mk v0.fields (v0.baseObjs.take i ++ v.baseObjs.drop i)

mutual

/-- All field names an instance of a type carries on the wire, flattened:
base names first (in declaration order, recursively), then the type's own
names. -/
def flatNames : TypeDesc → List String
  | .mk ns bs => flatNamesL bs ++ ns

/-- `flatNames` across a base list. -/
def flatNamesL : List TypeDesc → List String
  | [] => []
  | b :: bs => flatNames b ++ flatNamesL bs

end

mutual

/-- All field values an instance carries on the wire, flattened in the
same order as `flatNames`. -/
def flatVals : Inst → List Value
  | .mk fs os => flatValsL os ++ fs

/-- `flatVals` across a base-object list. -/
def flatValsL : List Inst → List Value
  | [] => []
  | o :: os => flatVals o ++ flatValsL os

end

/-- The two-field scenario type `{foo: int, bar: string}` from the tests
(`SerialPleh`). -/
def dPleh : TypeDesc := .mk ["foo", "bar"] []

/-- `SerialPleh{1, "PLEH!"}`. -/
def vPleh : Inst := .mk [.vint 1, .vstr "PLEH!"] []

/-- A default-constructed load target for `dPleh`. -/
def vPleh0 : Inst := .mk [.vint 0, .vstr ""] []

/-- The inheritance scenario's base type, contributing field `foo`. -/
def dParent : TypeDesc := .mk ["foo"] []

/-- The derived type, contributing field `bar` on top of `dParent`. -/
def dChild : TypeDesc := .mk ["bar"] [dParent]

/-- A `Child` with `foo = 22` and `bar = 42`. -/
def vChild : Inst := .mk [.vint 42] [.mk [.vint 22] []]

/-- A default-constructed load target for `dChild`. -/
def vChild0 : Inst := .mk [.vint 0] [.mk [.vint 0] []]

/-! ## General list helpers -/

/-- Writing back the value read at an index leaves a list unchanged. -/
theorem list_set_getD_self {α : Type} (l : List α) (i : Nat) (w : α) :
    l.set i (l.getD i w) = l := by
  induction l generalizing i with
  | nil => simp
  | cons a as ih =>
    cases i with
    | zero => simp
    | succ n => simpa using ih n

/-- Writing back a base subobject read at its own index is the identity. -/
theorem setBase_getD_self (v : Inst) (i : Nat) (w : Inst) :
    v.setBase i (v.baseObjs.getD i w) = v := by
  cases v with
  | mk fs os =>
    simp only [Inst.setBase, Inst.baseObjs, Inst.fields, list_set_getD_self]

/-! ## The save traversal never mutates the instance -/

mutual

/-- `saveHelper` hands back the instance exactly as it received it: the
traversal reads fields only through `member_ref_const`. -/
theorem saveHelper_inst_eq (d : TypeDesc) (v : Inst) (idx : Nat)
    (r : Inst × List (String × Value)) (h : saveHelper d v idx = .ok r) : r.1 = v := by
  rw [saveHelper] at h
  split at h
  · exact absurd h (by simp)
  · split at h
    · rename_i hc
      split at h
      · exact absurd h (by simp)
      · rename_i v1 evs1 heq
        have hv1 : v1 = v := by
          split at heq
          · exact saveParents_inst_eq d v 0 _ heq
          · injection heq with heq2
            injection heq2 with ha hb
            exact ha.symm
        split at h
        · split at h
          · exact absurd h (by simp)
          · rename_i v2 evs2 heq2
            have hv2 : v2 = v1 := saveHelper_inst_eq d v1 (idx + 1) _ heq2
            injection h with h2
            rw [← h2]
            simpa [hv2] using hv1
        · injection h with h2
          rw [← h2]
          simpa using hv1
    · exact absurd h (by simp)
termination_by (sizeOf d, 1, d.memberCount - idx)
decreasing_by
  all_goals first
    | exact Prod.Lex.right _ (Prod.Lex.left _ _ (by omega))
    | exact Prod.Lex.right _ (Prod.Lex.right _ (by omega))

/-- `saveParents` hands back the instance exactly as it received it. -/
theorem saveParents_inst_eq (d : TypeDesc) (v : Inst) (i : Nat)
    (r : Inst × List (String × Value)) (h : saveParents d v i = .ok r) :
    r.1 = v := by
  rw [saveParents] at h
  split at h
  · exact absurd h (by simp)
  · split at h
    · exact absurd h (by simp)
    · rename_i parent hb
      have hsz : sizeOf parent < sizeOf d := by
        have hmem : parent ∈ d.bases := List.get?_mem hb
        have h1 : sizeOf parent < sizeOf d.bases := List.sizeOf_lt_of_mem hmem
        cases d with
        | mk ns bs => simp [TypeDesc.bases] at h1 ⊢; omega
      split at h
      · exact absurd h (by simp)
      · split at h
        · exact absurd h (by simp)
        · rename_i b1 evs1 heq
          have hb1 : b1 = v.baseObjs.getD i (Inst.mk [] []) :=
            saveHelper_inst_eq parent _ 0 _ heq
          have hv1 : v.setBase i b1 = v := by
            rw [hb1]
            exact setBase_getD_self v i _
          split at h
          · split at h
            · exact absurd h (by simp)
            · rename_i v2 evs2 heq2
              have hv2 : v2 = v.setBase i b1 := saveParents_inst_eq d _ (i + 1) _ heq2
              injection h with h2
              rw [← h2]
              simpa [hv2] using hv1
          · injection h with h2
            rw [← h2]
            simpa using hv1
termination_by (sizeOf d, 0, d.baseCount - i)
decreasing_by
  all_goals first
    | exact Prod.Lex.left _ _ (by assumption)
    | exact Prod.Lex.right _ (Prod.Lex.right _ (by omega))

end

/-- `cereal::save` returns the instance it was given, unchanged. -/
theorem save_inst_eq (d : TypeDesc) (v : Inst)
    (r : Inst × List (String × Value)) (h : save d v = .ok r) : r.1 = v := by
  rw [save] at h
  split at h
  · exact absurd h (by simp)
  · exact saveHelper_inst_eq d v 0 r h

/-- Taking one past a just-written index splits off the written value. -/
theorem take_succ_set {α : Type} (l : List α) (idx : Nat) (x : α) (h : idx < l.length) :
    (l.set idx x).take (idx + 1) = l.take idx ++ [x] := by
  rw [List.set_eq_take_append_cons_drop, if_pos h]
  rw [List.take_append_eq_append_take]
  have hlen : (l.take idx).length = idx := List.length_take_of_le (Nat.le_of_lt h)
  rw [List.take_take]
  simp [hlen, Nat.min_def, Nat.le_of_lt h]

/-- Dropping at an in-range index exposes the element there. -/
theorem drop_getD_cons {α : Type} (l : List α) (idx : Nat) (w : α) (h : idx < l.length) :
    l.drop idx = l.getD idx w :: l.drop (idx + 1) := by
  rw [List.getD_eq_getElem l w h]
  exact List.drop_eq_getElem_cons h

/-- Setting the final in-range index is take-then-append. -/
theorem set_last_eq_take_append {α : Type} (l : List α) (idx : Nat) (x : α)
    (h : idx < l.length) (h2 : ¬ idx + 1 < l.length) :
    l.set idx x = l.take idx ++ [x] := by
  rw [List.set_eq_take_append_cons_drop, if_pos h]
  have : l.drop (idx + 1) = [] := List.drop_eq_nil_of_le (by omega)
  rw [this]

/-! ## Extraction lemmas for the hierarchy predicates -/

/-- `descAll` holds of the descriptor itself. -/
theorem descAll_self (p : TypeDesc → Bool) (d : TypeDesc) (h : descAll p d = true) :
    p d = true := by
  cases d with
  | mk ns bs =>
    rw [descAll] at h
    exact (Bool.and_eq_true_iff.mp h).1

/-- `descAll` restricted to the base list. -/
theorem descAll_bases (p : TypeDesc → Bool) (d : TypeDesc) (h : descAll p d = true) :
    descAllL p d.bases = true := by
  cases d with
  | mk ns bs =>
    rw [descAll] at h
    exact (Bool.and_eq_true_iff.mp h).2

/-- `descAllL` passes to any list element found by index. -/
theorem descAllL_get (p : TypeDesc → Bool) (bs : List TypeDesc) (i : Nat) (b : TypeDesc)
    (h : descAllL p bs = true) (hb : bs.get? i = some b) : descAll p b = true := by
  induction bs generalizing i with
  | nil => simp at hb
  | cons c cs ih =>
    rw [descAllL] at h
    have h2 := Bool.and_eq_true_iff.mp h
    cases i with
    | zero =>
      simp at hb
      rw [← hb]
      exact h2.1
    | succ n => exact ih n h2.2 (by simpa using hb)

/-- `descAll` passes from a descriptor to any direct base. -/
theorem descAll_base (p : TypeDesc → Bool) (d : TypeDesc) (i : Nat) (b : TypeDesc)
    (h : descAll p d = true) (hb : d.bases.get? i = some b) : descAll p b = true :=
  descAllL_get p d.bases i b (descAll_bases p d h) hb

/-! ## Extraction lemmas for shapes -/

/-- A shaped instance has one value slot per declared field. -/
theorem shapeOk_fields_len (d : TypeDesc) (v : Inst) (h : shapeOk d v = true) :
    v.fields.length = d.memberCount := by
  cases d with
  | mk ns bs =>
    cases v with
    | mk fs os =>
      rw [shapeOk] at h
      have h2 := Bool.and_eq_true_iff.mp h
      have h3 := Bool.and_eq_true_iff.mp h2.1
      simpa [Inst.fields, TypeDesc.memberCount, TypeDesc.fieldNames] using of_decide_eq_true h3.1

/-- A shaped instance has one base subobject per declared base. -/
theorem shapeOk_bases_len (d : TypeDesc) (v : Inst) (h : shapeOk d v = true) :
    v.baseObjs.length = d.baseCount := by
  cases d with
  | mk ns bs =>
    cases v with
    | mk fs os =>
      rw [shapeOk] at h
      have h2 := Bool.and_eq_true_iff.mp h
      have h3 := Bool.and_eq_true_iff.mp h2.1
      simpa [Inst.baseObjs, TypeDesc.baseCount, TypeDesc.bases] using of_decide_eq_true h3.2

/-- The base lists of a shaped instance are shaped pointwise. -/
theorem shapeOk_shapeOkL (d : TypeDesc) (v : Inst) (h : shapeOk d v = true) :
    shapeOkL d.bases v.baseObjs = true := by
  cases d with
  | mk ns bs =>
    cases v with
    | mk fs os =>
      rw [shapeOk] at h
      exact (Bool.and_eq_true_iff.mp h).2

/-- Pointwise shaping found by index, on the load-side default. -/
theorem shapeOkL_get (bs : List TypeDesc) (os : List Inst) (i : Nat) (b : TypeDesc)
    (h : shapeOkL bs os = true) (hb : bs.get? i = some b) :
    shapeOk b (os.getD i (Inst.mk [] [])) = true := by
  induction bs generalizing i os with
  | nil => simp at hb
  | cons c cs ih =>
    cases os with
    | nil => rw [shapeOkL] at h; exact absurd h (by simp)
    | cons o os2 =>
      rw [shapeOkL] at h
      have h2 := Bool.and_eq_true_iff.mp h
      cases i with
      | zero =>
        simp at hb
        rw [← hb]
        simpa using h2.1
      | succ n =>
        simpa using ih os2 n h2.2 (by simpa using hb)

/-- The base subobject at a declared base index is shaped by that base. -/
theorem shapeOk_base (d : TypeDesc) (v : Inst) (i : Nat) (b : TypeDesc)
    (h : shapeOk d v = true) (hb : d.bases.get? i = some b) :
    shapeOk b (v.baseObjs.getD i (Inst.mk [] [])) = true :=
  shapeOkL_get d.bases v.baseObjs i b (shapeOk_shapeOkL d v h) hb

/-- Writing a field keeps the shape. -/
theorem shapeOk_setField (d : TypeDesc) (v : Inst) (idx : Nat) (x : Value)
    (h : shapeOk d v = true) : shapeOk d (v.setField idx x) = true := by
  cases d with
  | mk ns bs =>
    cases v with
    | mk fs os =>
      simp only [Inst.setField, Inst.fields, Inst.baseObjs]
      rw [shapeOk] at h ⊢
      simpa using h

/-- Replacing a base list entry with a shaped instance keeps pointwise
shaping. -/
theorem shapeOkL_set (bs : List TypeDesc) (os : List Inst) (i : Nat) (b : TypeDesc)
    (x : Inst) (h : shapeOkL bs os = true) (hb : bs.get? i = some b)
    (hx : shapeOk b x = true) : shapeOkL bs (os.set i x) = true := by
  induction bs generalizing i os with
  | nil => simp at hb
  | cons c cs ih =>
    cases os with
    | nil => rw [shapeOkL] at h; exact absurd h (by simp)
    | cons o os2 =>
      rw [shapeOkL] at h
      have h2 := Bool.and_eq_true_iff.mp h
      cases i with
      | zero =>
        simp at hb
        rw [List.set_cons_zero, shapeOkL]
        rw [← hb] at hx
        simp [hx, h2.2]
      | succ n =>
        rw [List.set_cons_succ, shapeOkL]
        simp [h2.1, ih os2 n h2.2 (by simpa using hb)]

/-- Writing a shaped base subobject keeps the shape. -/
theorem shapeOk_setBase (d : TypeDesc) (v : Inst) (i : Nat) (b : TypeDesc) (x : Inst)
    (h : shapeOk d v = true) (hb : d.bases.get? i = some b)
    (hx : shapeOk b x = true) : shapeOk d (v.setBase i x) = true := by
  cases d with
  | mk ns bs =>
    cases v with
    | mk fs os =>
      simp only [Inst.setBase, Inst.fields, Inst.baseObjs]
      rw [shapeOk] at h ⊢
      have h2 := Bool.and_eq_true_iff.mp h
      have h3 := Bool.and_eq_true_iff.mp h2.1
      refine Bool.and_eq_true_iff.mpr ⟨Bool.and_eq_true_iff.mpr ⟨?goal1, ?goal2⟩, ?goal3⟩
      · exact h3.1
      · simpa using of_decide_eq_true h3.2
      · exact shapeOkL_set bs os i b x h2.2 (by simpa [TypeDesc.bases] using hb) hx

/-! ## Stitch lemmas -/

/-- A load that starts at field index 0 replaces the whole target. -/
theorem stitch_zero (v0 v : Inst) : stitch 0 v0 v = v := by
  cases v with
  | mk fs os => simp [stitch, Inst.fields, Inst.baseObjs]

/-- Overwriting index `idx` with the source's value advances the stitched
prefix by one. -/
theorem step_set_take_drop {α : Type} (l0 l : List α) (idx : Nat) (w : α)
    (h0 : idx < l0.length) (hv : idx < l.length) :
    (l0.set idx (l.getD idx w)).take (idx + 1) ++ l.drop (idx + 1) =
      l0.take idx ++ l.drop idx := by
  rw [take_succ_set _ _ _ h0, drop_getD_cons l idx w hv]
  simp

/-- Overwriting the final index with the source's value completes the
stitch. -/
theorem last_set_take_drop {α : Type} (l0 l : List α) (idx : Nat) (w : α)
    (h0 : idx < l0.length) (hv : idx < l.length) (hlast : ¬ idx + 1 < l.length)
    (hlen : l0.length = l.length) :
    l0.set idx (l.getD idx w) = l0.take idx ++ l.drop idx := by
  rw [set_last_eq_take_append _ _ _ h0 (by omega), drop_getD_cons l idx w hv]
  have h2 : l.drop (idx + 1) = [] := List.drop_eq_nil_of_le (by omega)
  rw [h2]

/-! ## Save-then-load: the traversal round-trips -/

mutual

/-- Loading from field index `idx` the stream a successful save from the
same index produced (with arbitrary trailing data) succeeds, consumes
exactly the saved values, and overwrites the target's bases (at index 0)
and its fields from `idx` on with the source's. -/
theorem saveLoadHelper (d : TypeDesc) (v v0 : Inst) (idx : Nat)
    (evs : List (String × Value)) (rest : List Value)
    (hs : shapeOk d v = true) (hs0 : shapeOk d v0 = true)
    (h : saveHelper d v idx = .ok (v, evs)) :
    loadHelper d v0 idx (evs.map Prod.snd ++ rest) = .ok (stitch idx v0 v, rest) := by
  rw [saveHelper] at h
  rw [loadHelper]
  split at h
  · exact absurd h (by simp)
  case isFalse hctor =>
    rw [if_neg hctor]
    split at h
    case isFalse hc => exact absurd h (by simp)
    case isTrue hc =>
      rw [dif_pos hc]
      have hflen : v.fields.length = d.memberCount := shapeOk_fields_len d v hs
      have hflen0 : v0.fields.length = d.memberCount := shapeOk_fields_len d v0 hs0
      have hblen : v.baseObjs.length = d.baseCount := shapeOk_bases_len d v hs
      have hblen0 : v0.baseObjs.length = d.baseCount := shapeOk_bases_len d v0 hs0
      split at h
      · exact absurd h (by simp)
      · rename_i v1 evs1 heq
        have hv1 : v1 = v := by
          split at heq
          · exact saveParents_inst_eq d v 0 _ heq
          · injection heq with heq2
            injection heq2 with ha hb
            exact ha.symm
        subst hv1
        -- the target instance after the (possible) parent load, and the
        -- stream it leaves behind
        by_cases hpar : idx = 0 ∧ 0 < d.baseCount
        · rw [if_pos hpar] at heq
          split at h
          · rename_i hr
            split at h
            · exact absurd h (by simp)
            · rename_i v2 evs2 heq2
              have hv2 : v2 = v1 := saveHelper_inst_eq d v1 (idx + 1) _ heq2
              rw [hv2] at heq2
              injection h with h2
              injection h2 with ha hb
              subst hb
              rw [if_pos hpar]
              have hload := saveLoadParents d v1 v0 0 evs1
                (memberRefConst v1 idx :: (evs2.map Prod.snd ++ rest)) hs hs0 heq
              simp only [List.map_append, List.map_cons, List.map_nil,
                List.append_assoc, List.cons_append, List.nil_append]
              rw [hload]
              try dsimp only
              rw [dif_pos hr]
              have hT : stitchBases 0 v0 v1 = Inst.mk v0.fields v1.baseObjs := by
                simp [stitchBases]
              rw [hT]
              have hshape1 : shapeOk d (Inst.mk v0.fields v1.baseObjs) = true := by
                cases d with
                | mk ns bs =>
                  cases v0 with
                  | mk f0 o0 =>
                    cases v1 with
                    | mk f1 o1 =>
                      rw [shapeOk] at hs hs0 ⊢
                      simp only [Inst.fields, Inst.baseObjs] at *
                      have a0 := Bool.and_eq_true_iff.mp hs0
                      have a1 := Bool.and_eq_true_iff.mp hs
                      have b0 := Bool.and_eq_true_iff.mp a0.1
                      have b1 := Bool.and_eq_true_iff.mp a1.1
                      simp [of_decide_eq_true b0.1, of_decide_eq_true b1.2, a1.2]
              have hsetshape : shapeOk d ((Inst.mk v0.fields v1.baseObjs).setField idx
                  (memberRefConst v1 idx)) = true :=
                shapeOk_setField d _ idx _ hshape1
              have hrec := saveLoadHelper d v1
                ((Inst.mk v0.fields v1.baseObjs).setField idx (memberRefConst v1 idx))
                (idx + 1) evs2 rest hs hsetshape heq2
              rw [hrec]
              have hidx0 : idx = 0 := hpar.1
              subst hidx0
              cases v0 with
              | mk f0 o0 =>
                cases v1 with
                | mk f1 o1 =>
                  simp only [Inst.fields, Inst.baseObjs] at hflen hflen0 hblen hblen0
                  simp only [stitch, Inst.setField, Inst.fields, Inst.baseObjs,
                    memberRefConst, if_neg (Nat.succ_ne_zero 0)]
                  rw [step_set_take_drop f0 f1 0 (Value.vint 0) (by omega) (by omega)]
                  simp
          · rename_i hr
            injection h with h2
            injection h2 with ha hb
            subst hb
            rw [if_pos hpar]
            have hload := saveLoadParents d v1 v0 0 evs1
              (memberRefConst v1 idx :: rest) hs hs0 heq
            simp only [List.map_append, List.map_cons, List.map_nil,
              List.append_assoc, List.cons_append, List.nil_append]
            rw [hload]
            try dsimp only
            rw [dif_neg hr]
            have hT : stitchBases 0 v0 v1 = Inst.mk v0.fields v1.baseObjs := by
              simp [stitchBases]
            rw [hT]
            have hidx0 : idx = 0 := hpar.1
            subst hidx0
            cases v0 with
            | mk f0 o0 =>
              cases v1 with
              | mk f1 o1 =>
                simp only [Inst.fields, Inst.baseObjs] at hflen hflen0 hblen hblen0
                simp only [stitch, Inst.setField, Inst.fields, Inst.baseObjs, memberRefConst]
                rw [last_set_take_drop f0 f1 0 (Value.vint 0) (by omega) (by omega)
                  (by omega) (by omega)]
                simp
        · rw [if_neg hpar] at heq
          injection heq with heq2
          injection heq2 with ha hb
          subst hb
          have hbeq : v1.baseObjs = v0.baseObjs ∨ idx ≠ 0 := by
            by_cases hz : idx = 0
            · left
              have hbc : d.baseCount = 0 := by
                rcases Nat.eq_zero_or_pos d.baseCount with h9 | h9
                · exact h9
                · exact absurd ⟨hz, h9⟩ hpar
              rw [List.length_eq_zero.mp (by omega : v1.baseObjs.length = 0)]
              rw [List.length_eq_zero.mp (by omega : v0.baseObjs.length = 0)]
            · right
              exact hz
          split at h
          · rename_i hr
            split at h
            · exact absurd h (by simp)
            · rename_i v2 evs2 heq2
              have hv2 : v2 = v1 := saveHelper_inst_eq d v1 (idx + 1) _ heq2
              rw [hv2] at heq2
              injection h with h2
              injection h2 with ha2 hb2
              subst hb2
              rw [if_neg hpar]
              simp only [List.map_append, List.map_cons, List.map_nil,
                List.append_assoc, List.cons_append, List.nil_append]
              try dsimp only
              rw [dif_pos hr]
              have hsetshape : shapeOk d (v0.setField idx (memberRefConst v1 idx)) = true :=
                shapeOk_setField d v0 idx _ hs0
              have hrec := saveLoadHelper d v1 (v0.setField idx (memberRefConst v1 idx))
                (idx + 1) evs2 rest hs hsetshape heq2
              rw [hrec]
              cases v0 with
              | mk f0 o0 =>
                cases v1 with
                | mk f1 o1 =>
                  simp only [Inst.fields, Inst.baseObjs] at hflen hflen0 hblen hblen0
                  simp only [stitch, Inst.setField, Inst.fields, Inst.baseObjs,
                    memberRefConst, if_neg (Nat.succ_ne_zero idx)]
                  rw [step_set_take_drop f0 f1 idx (Value.vint 0) (by omega) (by omega)]
                  rcases hbeq with hbe | hbe
                  · simp only [Inst.baseObjs] at hbe
                    rw [hbe]
                    simp
                  · rw [if_neg hbe]
          · rename_i hr
            injection h with h2
            injection h2 with ha2 hb2
            subst hb2
            rw [if_neg hpar]
            simp only [List.map_append, List.map_cons, List.map_nil,
              List.append_assoc, List.cons_append, List.nil_append]
            try dsimp only
            rw [dif_neg hr]
            cases v0 with
            | mk f0 o0 =>
              cases v1 with
              | mk f1 o1 =>
                simp only [Inst.fields, Inst.baseObjs] at hflen hflen0 hblen hblen0
                simp only [stitch, Inst.setField, Inst.fields, Inst.baseObjs, memberRefConst]
                rw [last_set_take_drop f0 f1 idx (Value.vint 0) (by omega) (by omega)
                  (by omega) (by omega)]
                rcases hbeq with hbe | hbe
                · simp only [Inst.baseObjs] at hbe
                  rw [hbe]
                  simp
                · rw [if_neg hbe]
termination_by (sizeOf d, 1, d.memberCount - idx)
decreasing_by
  all_goals first
    | exact Prod.Lex.right _ (Prod.Lex.left _ _ (by omega))
    | exact Prod.Lex.right _ (Prod.Lex.right _ (by omega))

/-- Loading from base index `i` the stream a successful parent save from
the same index produced (with arbitrary trailing data) succeeds, consumes
exactly the saved values, and overwrites the target's base subobjects from
`i` on with the source's. -/
theorem saveLoadParents (d : TypeDesc) (v v0 : Inst) (i : Nat)
    (evs : List (String × Value)) (rest : List Value)
    (hs : shapeOk d v = true) (hs0 : shapeOk d v0 = true)
    (h : saveParents d v i = .ok (v, evs)) :
    loadParents d v0 i (evs.map Prod.snd ++ rest) = .ok (stitchBases i v0 v, rest) := by
  rw [saveParents] at h
  rw [loadParents]
  split at h
  · exact absurd h (by simp)
  case isFalse hctor =>
    rw [if_neg hctor]
    split at h
    · exact absurd h (by simp)
    · rename_i parent hb
      have hsz : sizeOf parent < sizeOf d := by
        have hmem : parent ∈ d.bases := List.get?_mem hb
        have h1 : sizeOf parent < sizeOf d.bases := List.sizeOf_lt_of_mem hmem
        cases d with
        | mk ns bs => simp [TypeDesc.bases] at h1 ⊢; omega
      have hblen : v.baseObjs.length = d.baseCount := shapeOk_bases_len d v hs
      have hblen0 : v0.baseObjs.length = d.baseCount := shapeOk_bases_len d v0 hs0
      have hi : i < d.baseCount := by
        obtain ⟨h9, _⟩ := List.get?_eq_some.mp hb
        exact h9
      have hshapeb : shapeOk parent (v.baseObjs.getD i (Inst.mk [] [])) = true :=
        shapeOk_base d v i parent hs hb
      have hshapeb0 : shapeOk parent (v0.baseObjs.getD i (Inst.mk [] [])) = true :=
        shapeOk_base d v0 i parent hs0 hb
      split at h
      · exact absurd h (by simp)
      · rename_i hctorp
        rw [if_neg hctorp]
        split at h
        · exact absurd h (by simp)
        · rename_i b1 evs1 heq
          have hb1 : b1 = v.baseObjs.getD i (Inst.mk [] []) :=
            saveHelper_inst_eq parent _ 0 _ heq
          subst hb1
          have hset : v.setBase i (v.baseObjs.getD i (Inst.mk [] [])) = v :=
            setBase_getD_self v i _
          split at h
          · rename_i hr
            split at h
            · exact absurd h (by simp)
            · rename_i v2 evs2 heq2
              rw [hset] at heq2
              have hv2 : v2 = v := saveParents_inst_eq d v (i + 1) _ heq2
              rw [hv2] at heq2
              injection h with h2
              injection h2 with ha hb2
              subst hb2
              simp only [List.map_append, List.append_assoc]
              have hload := saveLoadHelper parent (v.baseObjs.getD i (Inst.mk [] []))
                (v0.baseObjs.getD i (Inst.mk [] [])) 0 evs1 (evs2.map Prod.snd ++ rest)
                hshapeb hshapeb0 heq
              rw [stitch_zero] at hload
              rw [hload]
              try dsimp only
              rw [dif_pos hr]
              have hshapes0 : shapeOk d (v0.setBase i (v.baseObjs.getD i (Inst.mk [] []))) = true :=
                shapeOk_setBase d v0 i parent _ hs0 hb hshapeb
              have hrec := saveLoadParents d v
                (v0.setBase i (v.baseObjs.getD i (Inst.mk [] []))) (i + 1) evs2 rest
                hs hshapes0 heq2
              rw [hrec]
              cases v0 with
              | mk f0 o0 =>
                cases v with
                | mk fv ov =>
                  simp only [Inst.baseObjs] at hblen hblen0
                  simp only [stitchBases, Inst.setBase, Inst.fields, Inst.baseObjs]
                  rw [step_set_take_drop o0 ov i (Inst.mk [] []) (by omega) (by omega)]
          · rename_i hr
            injection h with h2
            injection h2 with ha hb2
            subst hb2
            try simp only [List.map_append, List.append_assoc]
            have hload := saveLoadHelper parent (v.baseObjs.getD i (Inst.mk [] []))
              (v0.baseObjs.getD i (Inst.mk [] [])) 0 evs1 rest
              hshapeb hshapeb0 heq
            rw [stitch_zero] at hload
            rw [hload]
            try dsimp only
            rw [dif_neg hr]
            cases v0 with
            | mk f0 o0 =>
              cases v with
              | mk fv ov =>
                simp only [Inst.baseObjs] at hblen hblen0
                simp only [stitchBases, Inst.setBase, Inst.fields, Inst.baseObjs]
                rw [last_set_take_drop o0 ov i (Inst.mk [] []) (by omega) (by omega)
                  (by omega) (by omega)]
termination_by (sizeOf d, 0, d.baseCount - i)
decreasing_by
  all_goals first
    | exact Prod.Lex.left _ _ (by assumption)
    | exact Prod.Lex.right _ (Prod.Lex.right _ (by omega))

end

/-! ## Success of the save traversal under the hierarchy preconditions -/

mutual

/-- When every singleton in the hierarchy constructs, every type in the
hierarchy has at least one field, and the instance is shaped, `saveHelper`
succeeds from any in-range index and emits one event per remaining field
(the full base contribution included when starting at index 0). -/
theorem saveHelper_ok (d : TypeDesc) (v : Inst) (idx : Nat)
    (hd : validDeep d = true) (hp : allPos d = true) (hs : shapeOk d v = true)
    (hidx : idx < d.memberCount) :
    ∃ evs, saveHelper d v idx = .ok (v, evs) ∧
      evs.length = (if idx = 0 then totalFieldsL d.bases else 0) + (d.memberCount - idx) := by
  have hctor : ctorOk d.fieldNames = true := by
    have := descAll_self _ d hd
    exact this
  have hpos : 0 < d.memberCount := by
    have := descAll_self _ d hp
    exact of_decide_eq_true this
  by_cases hpar : idx = 0 ∧ 0 < d.baseCount
  · obtain ⟨evs1, hsp, hlen1⟩ := saveParents_ok d v 0 hd hp hs hpar.2
    by_cases hr : idx + 1 < d.memberCount
    · obtain ⟨evs2, hsh, hlen2⟩ := saveHelper_ok d v (idx + 1) hd hp hs hr
      refine ⟨evs1 ++ (memberAtIndex (storedNames d.fieldNames) idx,
        memberRefConst v idx) :: evs2, ?_, ?_⟩
      · rw [saveHelper]
        rw [if_neg (by simp [hctor])]
        rw [dif_pos ⟨hpos, hidx⟩]
        rw [if_pos hpar, hsp]
        try dsimp only
        rw [dif_pos hr, hsh]
      · simp only [List.length_append, List.length_cons]
        rw [if_neg (by omega : ¬ idx + 1 = 0)] at hlen2
        rw [if_pos hpar.1]
        simp at hlen1
        omega
    · refine ⟨evs1 ++ [(memberAtIndex (storedNames d.fieldNames) idx,
        memberRefConst v idx)], ?_, ?_⟩
      · rw [saveHelper]
        rw [if_neg (by simp [hctor])]
        rw [dif_pos ⟨hpos, hidx⟩]
        rw [if_pos hpar, hsp]
        try dsimp only
        rw [dif_neg hr]
      · simp only [List.length_append, List.length_cons, List.length_nil]
        rw [if_pos hpar.1]
        simp at hlen1
        omega
  · by_cases hr : idx + 1 < d.memberCount
    · obtain ⟨evs2, hsh, hlen2⟩ := saveHelper_ok d v (idx + 1) hd hp hs hr
      refine ⟨(memberAtIndex (storedNames d.fieldNames) idx,
        memberRefConst v idx) :: evs2, ?_, ?_⟩
      · rw [saveHelper]
        rw [if_neg (by simp [hctor])]
        rw [dif_pos ⟨hpos, hidx⟩]
        rw [if_neg hpar]
        try dsimp only
        rw [dif_pos hr, hsh]
        try dsimp only
        simp
      · simp only [List.length_cons]
        rw [if_neg (by omega : ¬ idx + 1 = 0)] at hlen2
        by_cases hz : idx = 0
        · have hbc : d.baseCount = 0 := by
            rcases Nat.eq_zero_or_pos d.baseCount with h9 | h9
            · exact h9
            · exact absurd ⟨hz, h9⟩ hpar
          rw [if_pos hz]
          have hnil : d.bases = [] := by
            cases d with
            | mk ns bs =>
              simp only [TypeDesc.baseCount, TypeDesc.bases] at hbc ⊢
              exact List.length_eq_zero.mp hbc
          rw [hnil]
          rw [totalFieldsL]
          omega
        · rw [if_neg hz]
          omega
    · refine ⟨[(memberAtIndex (storedNames d.fieldNames) idx,
        memberRefConst v idx)], ?_, ?_⟩
      · rw [saveHelper]
        rw [if_neg (by simp [hctor])]
        rw [dif_pos ⟨hpos, hidx⟩]
        rw [if_neg hpar]
        try dsimp only
        rw [dif_neg hr]
        simp
      · simp only [List.length_cons, List.length_nil]
        by_cases hz : idx = 0
        · have hbc : d.baseCount = 0 := by
            rcases Nat.eq_zero_or_pos d.baseCount with h9 | h9
            · exact h9
            · exact absurd ⟨hz, h9⟩ hpar
          rw [if_pos hz]
          have hnil : d.bases = [] := by
            cases d with
            | mk ns bs =>
              simp only [TypeDesc.baseCount, TypeDesc.bases] at hbc ⊢
              exact List.length_eq_zero.mp hbc
          rw [hnil]
          rw [totalFieldsL]
          omega
        · rw [if_neg hz]
          omega
termination_by (sizeOf d, 1, d.memberCount - idx)
decreasing_by
  all_goals first
    | exact Prod.Lex.right _ (Prod.Lex.left _ _ (by omega))
    | exact Prod.Lex.right _ (Prod.Lex.right _ (by omega))

/-- Under the same preconditions `saveParents` succeeds from any in-range
base index and emits one event per field of the remaining bases. -/
theorem saveParents_ok (d : TypeDesc) (v : Inst) (i : Nat)
    (hd : validDeep d = true) (hp : allPos d = true) (hs : shapeOk d v = true)
    (hi : i < d.baseCount) :
    ∃ evs, saveParents d v i = .ok (v, evs) ∧
      evs.length = totalFieldsL (d.bases.drop i) := by
  have hctor : ctorOk d.fieldNames = true := descAll_self _ d hd
  have hib : i < d.bases.length := hi
  have hbget : d.bases.get? i = some (d.bases.get ⟨i, hib⟩) := List.get?_eq_get hib
  set parent := d.bases.get ⟨i, hib⟩ with hpdef
  have hsz : sizeOf parent < sizeOf d := by
    have hmem : parent ∈ d.bases := List.get_mem d.bases i hib
    have h1 : sizeOf parent < sizeOf d.bases := List.sizeOf_lt_of_mem hmem
    cases d with
    | mk ns bs => simp [TypeDesc.bases] at h1 ⊢; omega
  have hdp : validDeep parent = true := descAll_base _ d i parent hd hbget
  have hpp : allPos parent = true := descAll_base _ d i parent hp hbget
  have hsb : shapeOk parent (v.baseObjs.getD i (Inst.mk [] [])) = true :=
    shapeOk_base d v i parent hs hbget
  have hppos : 0 < parent.memberCount := of_decide_eq_true (descAll_self _ parent hpp)
  obtain ⟨evs1, hsh, hlen1⟩ := saveHelper_ok parent (v.baseObjs.getD i (Inst.mk [] [])) 0
    hdp hpp hsb hppos
  have hset : v.setBase i (v.baseObjs.getD i (Inst.mk [] [])) = v :=
    setBase_getD_self v i _
  have hdrop : d.bases.drop i = parent :: d.bases.drop (i + 1) := by
    rw [hpdef]
    exact List.drop_eq_getElem_cons hib
  by_cases hr : i + 1 < d.baseCount
  · obtain ⟨evs2, hsp2, hlen2⟩ := saveParents_ok d v (i + 1) hd hp hs hr
    refine ⟨evs1 ++ evs2, ?_, ?_⟩
    · rw [saveParents]
      rw [if_neg (by simp [hctor])]
      rw [hbget]
      try dsimp only
      rw [if_neg (by simp [descAll_self _ parent hdp])]
      rw [hsh]
      try dsimp only
      rw [dif_pos hr]
      rw [hset, hsp2]
    · rw [hdrop, totalFieldsL]
      simp only [List.length_append]
      have : totalFields parent = totalFieldsL parent.bases + parent.memberCount := by
        cases parent with
        | mk ns bs =>
          rw [totalFields]
          simp [TypeDesc.memberCount, TypeDesc.fieldNames, TypeDesc.bases]
      simp at hlen1
      omega
  · refine ⟨evs1, ?_, ?_⟩
    · rw [saveParents]
      rw [if_neg (by simp [hctor])]
      rw [hbget]
      try dsimp only
      rw [if_neg (by simp [descAll_self _ parent hdp])]
      rw [hsh]
      try dsimp only
      rw [dif_neg hr]
      rw [hset]
    · have hr2 : ¬ i + 1 < d.bases.length := hr
      have hdrop2 : d.bases.drop (i + 1) = [] := List.drop_eq_nil_of_le (by omega)
      rw [hdrop, totalFieldsL, hdrop2, totalFieldsL]
      have : totalFields parent = totalFieldsL parent.bases + parent.memberCount := by
        cases parent with
        | mk ns bs =>
          rw [totalFields]
          simp [TypeDesc.memberCount, TypeDesc.fieldNames, TypeDesc.bases]
      simp at hlen1
      omega
termination_by (sizeOf d, 0, d.baseCount - i)
decreasing_by
  all_goals first
    | exact Prod.Lex.left _ _ (by assumption)
    | exact Prod.Lex.right _ (Prod.Lex.right _ (by omega))

end

/-! ## The engine trace equals the specification trace -/

/-- With no empty identifier among the member names, the runtime
re-stringification keeps every name. -/
theorem restringify_eq (names : List String)
    (h : names.all (fun n => n ≠ "") = true) : restringify names = names := by
  rw [restringify]
  rw [List.takeWhile_eq_self_iff]
  intro x hx
  exact List.all_eq_true.mp h x hx

/-- Dropping at an in-range index of a zip exposes the paired entry. -/
theorem zip_drop_cons (ns : List String) (fs : List Value) (idx : Nat)
    (h1 : idx < ns.length) (h2 : idx < fs.length) :
    (ns.zip fs).drop idx =
      (ns.getD idx "", fs.getD idx (Value.vint 0)) :: (ns.zip fs).drop (idx + 1) := by
  induction idx generalizing ns fs with
  | zero =>
    cases ns with
    | nil => simp at h1
    | cons n ns2 =>
      cases fs with
      | nil => simp at h2
      | cons f fs2 => simp [List.zip_cons_cons]
  | succ k ih =>
    cases ns with
    | nil => simp at h1
    | cons n ns2 =>
      cases fs with
      | nil => simp at h2
      | cons f fs2 =>
        simp only [List.zip_cons_cons, List.drop_succ_cons, List.getD_cons_succ]
        exact ih ns2 fs2 (by simpa using h1) (by simpa using h2)

/-- `saveSpec` unfolded through the accessors. -/
theorem saveSpec_unfold (b : TypeDesc) (o : Inst) :
    saveSpec b o = saveSpecL b.bases o.baseObjs ++ b.fieldNames.zip o.fields := by
  cases b with
  | mk ns bs =>
    cases o with
    | mk fs os =>
      rw [saveSpec]
      simp [TypeDesc.bases, TypeDesc.fieldNames, Inst.baseObjs, Inst.fields]

mutual

/-- The events a successful `saveHelper` run from field index `idx` emits
are exactly the specification trace: all base events when starting at
index 0, followed by the remaining own fields paired with their declared
names in declaration order. -/
theorem saveHelper_spec (d : TypeDesc) (v : Inst) (idx : Nat) (evs : List (String × Value))
    (hs : shapeOk d v = true) (hne : noEmptyNames d = true)
    (h : saveHelper d v idx = .ok (v, evs)) :
    evs = (if idx = 0 then saveSpecL d.bases v.baseObjs else []) ++
      (d.fieldNames.zip v.fields).drop idx := by
  have hnames : d.fieldNames.all (fun n => n ≠ "") = true := descAll_self _ d hne
  have hstored : storedNames d.fieldNames = d.fieldNames := by
    rw [storedNames]
    exact restringify_eq d.fieldNames hnames
  have hflen : v.fields.length = d.memberCount := shapeOk_fields_len d v hs
  rw [saveHelper] at h
  split at h
  · exact absurd h (by simp)
  · rename_i hctor
    split at h
    · rename_i hc
      split at h
      · exact absurd h (by simp)
      · rename_i v1 evs1 heq
        have hv1 : v1 = v := by
          split at heq
          · exact saveParents_inst_eq d v 0 _ heq
          · injection heq with heq2
            injection heq2 with ha hb
            exact ha.symm
        subst hv1
        have hev : (memberAtIndex (storedNames d.fieldNames) idx, memberRefConst v1 idx) =
            (d.fieldNames.getD idx "", v1.fields.getD idx (Value.vint 0)) := by
          rw [hstored, memberAtIndex, memberRefConst]
        have hevs1 : evs1 = if idx = 0 then saveSpecL d.bases v1.baseObjs else [] := by
          by_cases hpar : idx = 0 ∧ 0 < d.baseCount
          · rw [if_pos hpar] at heq
            rw [if_pos hpar.1]
            have := saveParents_spec d v1 0 evs1 hs hne heq
            simpa using this
          · rw [if_neg hpar] at heq
            injection heq with heq2
            injection heq2 with ha hb
            by_cases hz : idx = 0
            · have hbc : d.baseCount = 0 := by
                rcases Nat.eq_zero_or_pos d.baseCount with h9 | h9
                · exact h9
                · exact absurd ⟨hz, h9⟩ hpar
              have hnil : d.bases = [] := List.length_eq_zero.mp hbc
              rw [if_pos hz, hnil, saveSpecL]
              exact hb.symm
            · rw [if_neg hz]
              exact hb.symm
        split at h
        · rename_i hr
          split at h
          · exact absurd h (by simp)
          · rename_i v2 evs2 heq2
            have hv2 : v2 = v1 := saveHelper_inst_eq d v1 (idx + 1) _ heq2
            rw [hv2] at heq2
            injection h with h2
            injection h2 with ha hb
            subst hb
            have hrec := saveHelper_spec d v1 (idx + 1) evs2 hs hne heq2
            rw [if_neg (by omega : ¬ idx + 1 = 0)] at hrec
            rw [hevs1, hrec, hev]
            simp only [List.nil_append]
            rw [zip_drop_cons d.fieldNames v1.fields idx hc.2 (by omega)]
        · rename_i hr
          injection h with h2
          injection h2 with ha hb
          subst hb
          rw [hevs1, hev]
          have hzdrop : (d.fieldNames.zip v1.fields).drop (idx + 1) = [] := by
            apply List.drop_eq_nil_of_le
            rw [List.length_zip]
            have h3 : idx < d.memberCount := hc.2
            have h4 : ¬ idx + 1 < d.memberCount := hr
            have h5 : d.fieldNames.length = d.memberCount := rfl
            omega
          rw [zip_drop_cons d.fieldNames v1.fields idx hc.2 (by omega), hzdrop]
    · exact absurd h (by simp)
termination_by (sizeOf d, 1, d.memberCount - idx)
decreasing_by
  all_goals first
    | exact Prod.Lex.right _ (Prod.Lex.left _ _ (by omega))
    | exact Prod.Lex.right _ (Prod.Lex.right _ (by omega))

/-- The events a successful `saveParents` run from base index `i` emits
are the specification traces of the remaining bases, in order. -/
theorem saveParents_spec (d : TypeDesc) (v : Inst) (i : Nat) (evs : List (String × Value))
    (hs : shapeOk d v = true) (hne : noEmptyNames d = true)
    (h : saveParents d v i = .ok (v, evs)) :
    evs = saveSpecL (d.bases.drop i) (v.baseObjs.drop i) := by
  rw [saveParents] at h
  split at h
  · exact absurd h (by simp)
  · split at h
    · exact absurd h (by simp)
    · rename_i parent hb
      have hsz : sizeOf parent < sizeOf d := by
        have hmem : parent ∈ d.bases := List.get?_mem hb
        have h1 : sizeOf parent < sizeOf d.bases := List.sizeOf_lt_of_mem hmem
        cases d with
        | mk ns bs => simp [TypeDesc.bases] at h1 ⊢; omega
      have hblen : v.baseObjs.length = d.baseCount := shapeOk_bases_len d v hs
      have hi : i < d.bases.length := by
        obtain ⟨h9, _⟩ := List.get?_eq_some.mp hb
        exact h9
      have hio : i < v.baseObjs.length := by
        have : d.bases.length = d.baseCount := rfl
        omega
      have hsb : shapeOk parent (v.baseObjs.getD i (Inst.mk [] [])) = true :=
        shapeOk_base d v i parent hs hb
      have hneb : noEmptyNames parent = true := descAll_base _ d i parent hne hb
      have hgetb : d.bases.getD i (TypeDesc.mk [] []) = parent := by
        rw [List.getD_eq_getElem _ _ hi]
        have := List.get?_eq_some.mp hb
        obtain ⟨h9, h10⟩ := this
        simpa using h10
      have hdropb : d.bases.drop i = parent :: d.bases.drop (i + 1) := by
        rw [drop_getD_cons d.bases i (TypeDesc.mk [] []) hi, hgetb]
      have hdropo : v.baseObjs.drop i =
          v.baseObjs.getD i (Inst.mk [] []) :: v.baseObjs.drop (i + 1) :=
        drop_getD_cons v.baseObjs i (Inst.mk [] []) hio
      split at h
      · exact absurd h (by simp)
      · split at h
        · exact absurd h (by simp)
        · rename_i b1 evs1 heq
          have hb1 : b1 = v.baseObjs.getD i (Inst.mk [] []) :=
            saveHelper_inst_eq parent _ 0 _ heq
          subst hb1
          have hset : v.setBase i (v.baseObjs.getD i (Inst.mk [] [])) = v :=
            setBase_getD_self v i _
          have hspec1 := saveHelper_spec parent (v.baseObjs.getD i (Inst.mk [] [])) 0 evs1
            hsb hneb heq
          rw [if_pos rfl] at hspec1
          simp only [List.drop_zero] at hspec1
          rw [← saveSpec_unfold parent _] at hspec1
          split at h
          · rename_i hr
            split at h
            · exact absurd h (by simp)
            · rename_i v2 evs2 heq2
              rw [hset] at heq2
              have hv2 : v2 = v := saveParents_inst_eq d v (i + 1) _ heq2
              rw [hv2] at heq2
              injection h with h2
              injection h2 with ha hb2
              subst hb2
              have hrec := saveParents_spec d v (i + 1) evs2 hs hne heq2
              rw [hdropb, hdropo, saveSpecL, hspec1, hrec]
          · rename_i hr
            injection h with h2
            injection h2 with ha hb2
            subst hb2
            have hnil1 : d.bases.drop (i + 1) = [] := by
              apply List.drop_eq_nil_of_le
              have h4 : ¬ i + 1 < d.baseCount := hr
              have h5 : d.bases.length = d.baseCount := rfl
              omega
            have hnil2 : v.baseObjs.drop (i + 1) = [] := by
              apply List.drop_eq_nil_of_le
              have h4 : ¬ i + 1 < d.baseCount := hr
              omega
            rw [hdropb, hdropo, saveSpecL, hspec1, hnil1, hnil2, saveSpecL]
            simp
termination_by (sizeOf d, 0, d.baseCount - i)
decreasing_by
  all_goals first
    | exact Prod.Lex.left _ _ (by assumption)
    | exact Prod.Lex.right _ (Prod.Lex.right _ (by omega))

end

/-! ## Traversal depth equals ancestor levels plus one -/

/-- From any field index past 0, the traversal enters no further
type-level frame. -/
theorem traverseDepthH_pos (d : TypeDesc) (idx : Nat) (h : 1 ≤ idx) :
    traverseDepthH d idx = 0 := by
  rw [traverseDepthH]
  rw [if_neg (by omega : ¬ (idx = 0 ∧ 0 < d.baseCount))]
  by_cases hr : idx + 1 < d.memberCount
  · rw [dif_pos hr, traverseDepthH_pos d (idx + 1) (by omega)]
    simp
  · rw [dif_neg hr]
    simp
termination_by (sizeOf d, 1, d.memberCount - idx)
decreasing_by
  exact Prod.Lex.right _ (Prod.Lex.right _ (by omega))

mutual

/-- The nesting of type-level traversal frames on a type equals its
ancestor-level count. -/
theorem traverseDepthH_eq (d : TypeDesc) :
    traverseDepthH d 0 = ancestorLevels d := by
  rw [traverseDepthH]
  have h2 : (if hr : 0 + 1 < d.memberCount then traverseDepthH d (0 + 1) else 0) = 0 := by
    by_cases hr : 0 + 1 < d.memberCount
    · rw [dif_pos hr]
      exact traverseDepthH_pos d 1 (by omega)
    · rw [dif_neg hr]
  rw [h2]
  by_cases hb : 0 < d.baseCount
  · rw [if_pos ⟨rfl, hb⟩]
    rw [traverseDepthP_eq d 0 hb]
    cases d with
    | mk ns bs =>
      rw [ancestorLevels]
      simp [TypeDesc.bases]
  · rw [if_neg (by simp [hb])]
    cases d with
    | mk ns bs =>
      rw [ancestorLevels]
      have hnil : bs = [] := by
        simp only [TypeDesc.baseCount, TypeDesc.bases] at hb
        exact List.length_eq_zero.mp (by omega)
      rw [hnil, ancestorLevelsL]
      simp
termination_by (sizeOf d, 1, d.memberCount - 0)
decreasing_by
  all_goals first
    | exact Prod.Lex.right _ (Prod.Lex.left _ _ (by omega))
    | exact Prod.Lex.right _ (Prod.Lex.right _ (by omega))

/-- From base index `i` on, the parent traversal nests one frame more
than the deepest remaining base. -/
theorem traverseDepthP_eq (d : TypeDesc) (i : Nat) (hi : i < d.baseCount) :
    traverseDepthP d i = ancestorLevelsL (d.bases.drop i) := by
  have hib : i < d.bases.length := hi
  have hbget : d.bases.get? i = some (d.bases.get ⟨i, hib⟩) := List.get?_eq_get hib
  set parent := d.bases.get ⟨i, hib⟩ with hpdef
  have hsz : sizeOf parent < sizeOf d := by
    have hmem : parent ∈ d.bases := List.get_mem d.bases i hib
    have h1 : sizeOf parent < sizeOf d.bases := List.sizeOf_lt_of_mem hmem
    cases d with
    | mk ns bs => simp [TypeDesc.bases] at h1 ⊢; omega
  have hdrop : d.bases.drop i = parent :: d.bases.drop (i + 1) := by
    rw [hpdef]
    exact List.drop_eq_getElem_cons hib
  rw [traverseDepthP]
  rw [hbget]
  try dsimp only
  have hh := traverseDepthH_eq parent
  rw [hh]
  rw [hdrop, ancestorLevelsL]
  by_cases hr : i + 1 < d.baseCount
  · rw [dif_pos hr, traverseDepthP_eq d (i + 1) hr]
  · rw [dif_neg hr]
    have hnil : d.bases.drop (i + 1) = [] := by
      apply List.drop_eq_nil_of_le
      have h5 : d.bases.length = d.baseCount := rfl
      omega
    rw [hnil, ancestorLevelsL]
termination_by (sizeOf d, 0, d.baseCount - i)
decreasing_by
  all_goals first
    | exact Prod.Lex.left _ _ (by assumption)
    | exact Prod.Lex.right _ (Prod.Lex.right _ (by omega))

end

/-! ## The internal static asserts never fire on a positive hierarchy -/

mutual

/-- With every type in the hierarchy carrying at least one field and the
visited ordinal in range, no invocation reached from `saveHelper` fails
either static assert. -/
theorem saveHelper_noAssert (d : TypeDesc) (v : Inst) (idx : Nat)
    (hp : allPos d = true) (hidx : idx < d.memberCount) :
    saveHelper d v idx ≠ .error .assertFail := by
  have hpos : 0 < d.memberCount := of_decide_eq_true (descAll_self _ d hp)
  rw [saveHelper]
  by_cases hcc : ctorOk d.fieldNames = false
  · rw [if_pos hcc]
    simp
  · rw [if_neg hcc]
    rw [dif_pos ⟨hpos, hidx⟩]
    split
    · rename_i e heq
      have hne : e ≠ TErr.assertFail := by
        intro hcon
        subst hcon
        split at heq
        · exact saveParents_noAssert d v 0 hp (by
            rename_i hcond
            exact hcond.2) heq
        · exact absurd heq (by simp)
      simp [hne]
    · rename_i v1 evs1 heq
      by_cases hr : idx + 1 < d.memberCount
      · rw [dif_pos hr]
        split
        · rename_i e heq2
          have hne : e ≠ TErr.assertFail := by
            intro hcon
            subst hcon
            exact saveHelper_noAssert d v1 (idx + 1) hp hr heq2
          simp [hne]
        · simp
      · rw [dif_neg hr]
        simp
termination_by (sizeOf d, 1, d.memberCount - idx)
decreasing_by
  all_goals first
    | exact Prod.Lex.right _ (Prod.Lex.left _ _ (by omega))
    | exact Prod.Lex.right _ (Prod.Lex.right _ (by omega))

/-- With every type in the hierarchy carrying at least one field and the
base index in range, no invocation reached from `saveParents` fails a
static assert or walks off the base list. -/
theorem saveParents_noAssert (d : TypeDesc) (v : Inst) (i : Nat)
    (hp : allPos d = true) (hi : i < d.baseCount) :
    saveParents d v i ≠ .error .assertFail := by
  have hib : i < d.bases.length := hi
  have hbget : d.bases.get? i = some (d.bases.get ⟨i, hib⟩) := List.get?_eq_get hib
  set parent := d.bases.get ⟨i, hib⟩ with hpdef
  have hsz : sizeOf parent < sizeOf d := by
    have hmem : parent ∈ d.bases := List.get_mem d.bases i hib
    have h1 : sizeOf parent < sizeOf d.bases := List.sizeOf_lt_of_mem hmem
    cases d with
    | mk ns bs => simp [TypeDesc.bases] at h1 ⊢; omega
  have hpp : allPos parent = true := descAll_base _ d i parent hp hbget
  have hppos : 0 < parent.memberCount := of_decide_eq_true (descAll_self _ parent hpp)
  rw [saveParents]
  by_cases hcc : ctorOk d.fieldNames = false
  · rw [if_pos hcc]
    simp
  · rw [if_neg hcc]
    rw [hbget]
    try dsimp only
    by_cases hcp : ctorOk parent.fieldNames = false
    · rw [if_pos hcp]
      simp
    · rw [if_neg hcp]
      split
      · rename_i e heq
        have hne : e ≠ TErr.assertFail := by
          intro hcon
          subst hcon
          exact saveHelper_noAssert parent _ 0 hpp hppos heq
        simp [hne]
      · rename_i b1 evs1 heq
        by_cases hr : i + 1 < d.baseCount
        · rw [dif_pos hr]
          split
          · rename_i e heq2
            have hne : e ≠ TErr.assertFail := by
              intro hcon
              subst hcon
              exact saveParents_noAssert d _ (i + 1) hp hr heq2
            simp [hne]
          · simp
        · rw [dif_neg hr]
          simp
termination_by (sizeOf d, 0, d.baseCount - i)
decreasing_by
  all_goals first
    | exact Prod.Lex.left _ _ (by assumption)
    | exact Prod.Lex.right _ (Prod.Lex.right _ (by omega))

end

mutual

/-- Load-side counterpart of `saveHelper_noAssert`: truncated input can
fail the stream, never the static asserts. -/
theorem loadHelper_noAssert (d : TypeDesc) (v : Inst) (idx : Nat) (s : List Value)
    (hp : allPos d = true) (hidx : idx < d.memberCount) :
    loadHelper d v idx s ≠ .error .assertFail := by
  have hpos : 0 < d.memberCount := of_decide_eq_true (descAll_self _ d hp)
  rw [loadHelper]
  by_cases hcc : ctorOk d.fieldNames = false
  · rw [if_pos hcc]
    simp
  · rw [if_neg hcc]
    rw [dif_pos ⟨hpos, hidx⟩]
    split
    · rename_i e heq
      have hne : e ≠ TErr.assertFail := by
        intro hcon
        subst hcon
        split at heq
        · exact loadParents_noAssert d v 0 s hp (by
            rename_i hcond
            exact hcond.2) heq
        · exact absurd heq (by simp)
      simp [hne]
    · rename_i v1 s1 heq
      cases s1 with
      | nil => simp
      | cons x rest =>
        try dsimp only
        by_cases hr : idx + 1 < d.memberCount
        · rw [dif_pos hr]
          exact loadHelper_noAssert d (v1.setField idx x) (idx + 1) rest hp hr
        · rw [dif_neg hr]
          simp
termination_by (sizeOf d, 1, d.memberCount - idx)
decreasing_by
  all_goals first
    | exact Prod.Lex.right _ (Prod.Lex.left _ _ (by omega))
    | exact Prod.Lex.right _ (Prod.Lex.right _ (by omega))

/-- Load-side counterpart of `saveParents_noAssert`. -/
theorem loadParents_noAssert (d : TypeDesc) (v : Inst) (i : Nat) (s : List Value)
    (hp : allPos d = true) (hi : i < d.baseCount) :
    loadParents d v i s ≠ .error .assertFail := by
  have hib : i < d.bases.length := hi
  have hbget : d.bases.get? i = some (d.bases.get ⟨i, hib⟩) := List.get?_eq_get hib
  set parent := d.bases.get ⟨i, hib⟩ with hpdef
  have hsz : sizeOf parent < sizeOf d := by
    have hmem : parent ∈ d.bases := List.get_mem d.bases i hib
    have h1 : sizeOf parent < sizeOf d.bases := List.sizeOf_lt_of_mem hmem
    cases d with
    | mk ns bs => simp [TypeDesc.bases] at h1 ⊢; omega
  have hpp : allPos parent = true := descAll_base _ d i parent hp hbget
  have hppos : 0 < parent.memberCount := of_decide_eq_true (descAll_self _ parent hpp)
  rw [loadParents]
  by_cases hcc : ctorOk d.fieldNames = false
  · rw [if_pos hcc]
    simp
  · rw [if_neg hcc]
    rw [hbget]
    try dsimp only
    by_cases hcp : ctorOk parent.fieldNames = false
    · rw [if_pos hcp]
      simp
    · rw [if_neg hcp]
      split
      · rename_i e heq
        have hne : e ≠ TErr.assertFail := by
          intro hcon
          subst hcon
          exact loadHelper_noAssert parent _ 0 s hpp hppos heq
        simp [hne]
      · rename_i b1 s1 heq
        by_cases hr : i + 1 < d.baseCount
        · rw [dif_pos hr]
          exact loadParents_noAssert d _ (i + 1) s1 hp hr
        · rw [dif_neg hr]
          simp
termination_by (sizeOf d, 0, d.baseCount - i)
decreasing_by
  all_goals first
    | exact Prod.Lex.left _ _ (by assumption)
    | exact Prod.Lex.right _ (Prod.Lex.right _ (by omega))

end

/-! ## Descriptor cache: built once, stable ever after -/

/-- A cache hit returns the stored singleton and leaves the cache
untouched. -/
theorem instanceLookup_of_find (p : Nat → List String) (c : DescCache) (t : Nat)
    (ns : List String) (h : c.find? (fun x => x.fst == t) = some (t, ns)) :
    instanceLookup p c t = .ok (ns, c) := by
  rw [instanceLookup, h]

/-- After a successful lookup the cache holds the returned names under the
type's identity. -/
theorem instanceLookup_ok_find (p : Nat → List String) (c : DescCache) (t : Nat)
    (ns : List String) (c' : DescCache)
    (h : instanceLookup p c t = .ok (ns, c')) :
    c'.find? (fun x => x.fst == t) = some (t, ns) := by
  rw [instanceLookup] at h
  split at h
  · rename_i e hfind
    injection h with h2
    injection h2 with ha hb
    subst ha
    subst hb
    have hfst : e.fst = t := by
      have := List.find?_some hfind
      simpa using this
    cases e with
    | mk a b =>
      simp only at hfst
      subst hfst
      exact hfind
  · rename_i hfind
    split at h
    · exact absurd h (by simp)
    · rename_i ns0 heq
      injection h with h2
      injection h2 with ha hb
      subst ha
      subst hb
      rw [List.find?_append, hfind]
      simp

/-- A successful lookup only ever appends to the cache. -/
theorem instanceLookup_extends (p : Nat → List String) (c : DescCache) (t : Nat)
    (ns : List String) (c' : DescCache)
    (h : instanceLookup p c t = .ok (ns, c')) :
    ∃ suffix, c' = c ++ suffix := by
  rw [instanceLookup] at h
  split at h
  · injection h with h2
    injection h2 with ha hb
    exact ⟨[], by simp [hb]⟩
  · split at h
    · exact absurd h (by simp)
    · rename_i ns0 heq
      injection h with h2
      injection h2 with ha hb
      exact ⟨_, hb.symm⟩

/-- Whatever lookups later run, an entry once found keeps being found,
unchanged. -/
theorem runLookups_preserves_find (p : Nat → List String) (q : Nat × List String → Bool)
    (e : Nat × List String) :
    ∀ (ts : List Nat) (c : DescCache), c.find? q = some e →
      (runLookups p c ts).find? q = some e := by
  intro ts
  induction ts with
  | nil =>
    intro c h
    rw [runLookups]
    exact h
  | cons t2 ts2 ih =>
    intro c h
    rw [runLookups]
    split
    · exact ih c h
    · rename_i r hlk
      obtain ⟨suffix, hsuf⟩ := instanceLookup_extends p c t2 r.1 r.2 (by
        cases r with
        | mk x y => exact hlk)
      refine ih r.2 ?_
      rw [hsuf, List.find?_append, h]
      simp

/-! ## Shared-reference registry: serialize once, restore one instance -/

/-- Core invariant of the paired save/load registries: the loaded field
addresses are a pointwise function of the saved field addresses (so equal
saved targets come back as one shared instance), every loaded address is a
live cell of the final heap, and the output has one address per field. -/
theorem sharedGo_master (heap : List Value) :
    ∀ (fs reg lreg : List Nat) (nh : List Value),
      reg.length = lreg.length →
      (∀ k, k < lreg.length → lreg.getD k 0 < nh.length) →
      (loadSharedGo lreg nh (saveSharedGo heap reg fs)).1.length = fs.length ∧
      nh.length ≤ (loadSharedGo lreg nh (saveSharedGo heap reg fs)).2.length ∧
      (∀ k, k < fs.length →
        (loadSharedGo lreg nh (saveSharedGo heap reg fs)).1.getD k 0 <
          (loadSharedGo lreg nh (saveSharedGo heap reg fs)).2.length) ∧
      ∃ φ : Nat → Nat,
        (∀ x, x ∈ reg → φ x = lreg.getD (reg.indexOf x) 0) ∧
        (loadSharedGo lreg nh (saveSharedGo heap reg fs)).1 = fs.map φ := by
  intro fs
  induction fs with
  | nil =>
    intro reg lreg nh hlen hv
    rw [saveSharedGo, loadSharedGo]
    refine ⟨rfl, le_refl _, by simp, fun x => lreg.getD (reg.indexOf x) 0, fun x hx => rfl, rfl⟩
  | cons a as ih =>
    intro reg lreg nh hlen hv
    rw [saveSharedGo]
    by_cases hmem : a ∈ reg
    · rw [saveSharedStep, if_pos hmem]
      try dsimp only
      rw [loadSharedGo]
      try dsimp only
      obtain ⟨ih1, ih2, ih3, φ, hφ, hmap⟩ := ih reg lreg nh hlen hv
      have hidx : reg.indexOf a < lreg.length := by
        have := List.indexOf_lt_length.mpr hmem
        omega
      refine ⟨by simpa using ih1, ih2, ?_, φ, hφ, ?_⟩
      · intro k hk
        cases k with
        | zero =>
          simp only [List.getD_cons_zero]
          exact lt_of_lt_of_le (hv _ hidx) ih2
        | succ k2 =>
          simp only [List.getD_cons_succ]
          exact ih3 k2 (by simpa using hk)
      · simp only [List.map_cons]
        rw [hmap, hφ a hmem]
    · rw [saveSharedStep, if_neg hmem]
      try dsimp only
      rw [loadSharedGo]
      try dsimp only
      have hlen2 : (reg ++ [a]).length = (lreg ++ [nh.length]).length := by
        simp [hlen]
      have hv2 : ∀ k, k < (lreg ++ [nh.length]).length →
          (lreg ++ [nh.length]).getD k 0 < (nh ++ [heap.getD a (Value.vint 0)]).length := by
        intro k hk
        simp only [List.length_append, List.length_cons, List.length_nil] at hk
        by_cases hk2 : k < lreg.length
        · rw [List.getD_append _ _ _ _ hk2]
          have := hv k hk2
          simp only [List.length_append, List.length_cons, List.length_nil]
          omega
        · have hke : k = lreg.length := by omega
          subst hke
          rw [List.getD_append_right _ _ _ _ (le_refl _)]
          simp
      obtain ⟨ih1, ih2, ih3, φ, hφ, hmap⟩ :=
        ih (reg ++ [a]) (lreg ++ [nh.length]) (nh ++ [heap.getD a (Value.vint 0)]) hlen2 hv2
      have hgrow : nh.length + 1 ≤
          (loadSharedGo (lreg ++ [nh.length]) (nh ++ [heap.getD a (Value.vint 0)])
            (saveSharedGo heap (reg ++ [a]) as)).2.length := by
        have : (nh ++ [heap.getD a (Value.vint 0)]).length = nh.length + 1 := by simp
        omega
      refine ⟨by simpa using ih1, by omega, ?_, φ, ?_, ?_⟩
      · intro k hk
        cases k with
        | zero =>
          simp only [List.getD_cons_zero]
          omega
        | succ k2 =>
          simp only [List.getD_cons_succ]
          exact ih3 k2 (by simpa using hk)
      · intro x hx
        have hxa : x ∈ reg ++ [a] := by simp [hx]
        rw [hφ x hxa]
        have hxlt : reg.indexOf x < reg.length := List.indexOf_lt_length.mpr hx
        rw [List.indexOf_append_of_mem hx]
        rw [List.getD_append _ _ _ _ (by omega)]
      · simp only [List.map_cons]
        rw [hmap]
        have hphia : φ a = nh.length := by
          have hmema : a ∈ reg ++ [a] := by simp
          rw [hφ a hmema]
          rw [List.indexOf_append_of_not_mem hmem]
          simp only [List.indexOf_cons_self, Nat.add_zero]
          rw [List.getD_append_right _ _ _ _ (by omega)]
          simp [hlen]
        rw [hphia]

/-- The target of a shared reference is fully serialized exactly once per
save: at its first occurrence; later occurrences are back-references. -/
theorem payloadCount_once (heap : List Value) :
    ∀ (fs reg : List Nat) (a : Nat),
      payloadCountFor (saveSharedGo heap reg fs) fs a =
        if a ∈ reg then 0 else if a ∈ fs then 1 else 0 := by
  intro fs
  induction fs with
  | nil =>
    intro reg a
    rw [saveSharedGo]
    simp [payloadCountFor]
  | cons b as ih =>
    intro reg a
    rw [saveSharedGo]
    by_cases hmem : b ∈ reg
    · rw [saveSharedStep, if_pos hmem]
      try dsimp only
      have ih2 := ih reg a
      rw [payloadCountFor] at ih2 ⊢
      simp only [List.zip_cons_cons, List.countP_cons]
      rw [ih2]
      by_cases hareg : a ∈ reg
      · rw [if_pos hareg, if_pos hareg]
        simp [PtrEvent.isPayload]
      · rw [if_neg hareg, if_neg hareg]
        have hab : a ≠ b := by
          intro hcon
          subst hcon
          exact hareg hmem
        have : a ∈ b :: as ↔ a ∈ as := by
          simp [hab]
        rw [if_congr this rfl rfl]
        simp [PtrEvent.isPayload]
    · rw [saveSharedStep, if_neg hmem]
      try dsimp only
      have ih2 := ih (reg ++ [b]) a
      rw [payloadCountFor] at ih2 ⊢
      simp only [List.zip_cons_cons, List.countP_cons]
      rw [ih2]
      by_cases hab : a = b
      · subst hab
        rw [if_neg hmem]
        have haregb : a ∈ reg ++ [a] := by simp
        rw [if_pos haregb]
        simp [PtrEvent.isPayload]
      · have hiff : a ∈ reg ++ [b] ↔ a ∈ reg := by
          simp [hab]
        rw [if_congr hiff rfl rfl]
        by_cases hareg : a ∈ reg
        · rw [if_pos hareg, if_pos hareg]
          simp [PtrEvent.isPayload, Ne.symm hab]
        · rw [if_neg hareg, if_neg hareg]
          have : a ∈ b :: as ↔ a ∈ as := by
            simp [hab]
          rw [if_congr this rfl rfl]
          simp [PtrEvent.isPayload, Ne.symm hab]

/-! ## Projections of the specification trace -/

mutual

/-- The names of the specification trace are the flattened declared names;
the values are the flattened field values. -/
theorem saveSpec_proj (d : TypeDesc) (v : Inst) (hs : shapeOk d v = true) :
    (saveSpec d v).map Prod.fst = flatNames d ∧
      (saveSpec d v).map Prod.snd = flatVals v := by
  cases d with
  | mk ns bs =>
    cases v with
    | mk fs os =>
      rw [shapeOk] at hs
      have h2 := Bool.and_eq_true_iff.mp hs
      have h3 := Bool.and_eq_true_iff.mp h2.1
      have hlen : fs.length = ns.length := of_decide_eq_true h3.1
      have hIH := saveSpecL_proj bs os h2.2
      rw [saveSpec, flatNames, flatVals]
      constructor
      · rw [List.map_append, hIH.1, List.map_fst_zip ns fs (by omega)]
      · rw [List.map_append, hIH.2, List.map_snd_zip ns fs (by omega)]

/-- `saveSpec_proj` across the base lists. -/
theorem saveSpecL_proj (bs : List TypeDesc) (os : List Inst) (hs : shapeOkL bs os = true) :
    (saveSpecL bs os).map Prod.fst = flatNamesL bs ∧
      (saveSpecL bs os).map Prod.snd = flatValsL os := by
  cases bs with
  | nil =>
    cases os with
    | nil => simp [saveSpecL, flatNamesL, flatValsL]
    | cons o os2 =>
      rw [shapeOkL] at hs
      exact absurd hs (by simp)
  | cons b bs2 =>
    cases os with
    | nil =>
      rw [shapeOkL] at hs
      exact absurd hs (by simp)
    | cons o os2 =>
      rw [shapeOkL] at hs
      have h2 := Bool.and_eq_true_iff.mp hs
      have ha := saveSpec_proj b o h2.1
      have hb := saveSpecL_proj bs2 os2 h2.2
      rw [saveSpecL, flatNamesL, flatValsL]
      constructor <;> simp [List.map_append, ha.1, ha.2, hb.1, hb.2]

end

/-! ## Top-level round trip -/

/-- Saving and then loading through `cereal::save` / `cereal::load`
succeeds and restores the source exactly, consuming the whole stream, with
one event per field of the hierarchy. -/
theorem save_load_ok (d : TypeDesc) (v v0 : Inst)
    (h1 : validDeep d = true) (h2 : allPos d = true)
    (h3 : shapeOk d v = true) (h4 : shapeOk d v0 = true) :
    ∃ evs, save d v = .ok (v, evs) ∧ load d v0 (evs.map Prod.snd) = .ok (v, []) ∧
      evs.length = totalFields d := by
  have hctor : ctorOk d.fieldNames = true := descAll_self _ d h1
  have hpos : 0 < d.memberCount := of_decide_eq_true (descAll_self _ d h2)
  obtain ⟨evs, hsave, hlen⟩ := saveHelper_ok d v 0 h1 h2 h3 hpos
  refine ⟨evs, ?_, ?_, ?_⟩
  · rw [save, if_neg (by simp [hctor])]
    exact hsave
  · rw [load, if_neg (by simp [hctor])]
    have hld := saveLoadHelper d v v0 0 evs [] h3 h4 hsave
    rw [List.append_nil] at hld
    rw [hld, stitch_zero]
  · rw [hlen, if_pos rfl]
    cases d with
    | mk ns bs =>
      rw [totalFields]
      simp [TypeDesc.memberCount, TypeDesc.fieldNames, TypeDesc.bases]

/-! ## Claims -/

/-- C1 (counterexample): the claim as stated is false.  The descriptor of
a type with no fields and no bases is within both consteval bounds, and an
instance of it is well shaped, yet saving it to JSON is not performed at
all: the traversal's `static_assert(memberCount() > 0)` rejects the build,
so no serialized form exists from which load could restore the value. -/
theorem C1_counterexample :
    ctorOk (TypeDesc.mk [] []).fieldNames = true ∧
    shapeOk (TypeDesc.mk [] []) (Inst.mk [] []) = true ∧
    toJsonString (TypeDesc.mk [] []) (Inst.mk [] []) = .error .assertFail ∧
    ¬ ∃ doc, toJsonString (TypeDesc.mk [] []) (Inst.mk [] []) = .ok doc := by
  refine ⟨by decide, ?_, ?_, ?_⟩
  · simp [shapeOk, shapeOkL, Inst.fields, Inst.baseObjs, TypeDesc.fieldNames, TypeDesc.bases]
  · simp +decide [toJsonString, toJsonStream, save, saveHelper, ctorOk, Except.map,
      TypeDesc.fieldNames, TypeDesc.memberCount, MAX_CLASS_MEMBERS, MAX_IDENTIFIER_LENGTH]
  · intro hcon
    obtain ⟨doc, hdoc⟩ := hcon
    rw [show toJsonString (TypeDesc.mk [] []) (Inst.mk [] []) = .error .assertFail by
      simp +decide [toJsonString, toJsonStream, save, saveHelper, ctorOk, Except.map,
        TypeDesc.fieldNames, TypeDesc.memberCount, MAX_CLASS_MEMBERS,
        MAX_IDENTIFIER_LENGTH]] at hdoc
    exact absurd hdoc (by simp)

/-- C1 (amended): for every type whose descriptor is valid AND whose
hierarchy (the type and every transitive base) has at least one direct
field, save-then-load round-trips through the binary, JSON and XML
backends, via both the stream-bound and the string-bound entry points,
restoring an instance structurally equal to the original. -/
theorem C1_roundtrip_all_backends (d : TypeDesc) (v v0 : Inst)
    (h1 : validDeep d = true) (h2 : allPos d = true)
    (h3 : shapeOk d v = true) (h4 : shapeOk d v0 = true) :
    ∃ doc, toJsonStream d v [] = .ok doc ∧ fromJsonStream d v0 doc = .ok v ∧
      toJsonString d v = .ok doc ∧ fromJsonString d v0 doc = .ok v ∧
      toXmlStream d v [] = .ok doc ∧ fromXmlStream d v0 doc = .ok v ∧
      toXmlString d v = .ok doc ∧ fromXmlString d v0 doc = .ok v ∧
      toBinary d v = .ok (doc.map Prod.snd) ∧
      fromBinary d v0 (doc.map Prod.snd) = .ok v := by
  obtain ⟨evs, hsave, hload, hlen⟩ := save_load_ok d v v0 h1 h2 h3 h4
  refine ⟨evs, ?_, ?_, ?_, ?_, ?_, ?_, ?_, ?_, ?_, ?_⟩
  · rw [toJsonStream, hsave]
    simp [Except.map]
  · rw [fromJsonStream, hload]
    simp [Except.map]
  · rw [toJsonString, toJsonStream, hsave]
    simp [Except.map]
  · rw [fromJsonString, fromJsonStream, hload]
    simp [Except.map]
  · rw [toXmlStream, hsave]
    simp [Except.map]
  · rw [fromXmlStream, hload]
    simp [Except.map]
  · rw [toXmlString, toXmlStream, hsave]
    simp [Except.map]
  · rw [fromXmlString, fromXmlStream, hload]
    simp [Except.map]
  · rw [toBinary, hsave]
    simp [Except.map]
  · rw [fromBinary, hload]
    simp [Except.map]

/-- C1 (witness): the two-field type `{foo: int = 1, bar: string =
"PLEH!"}` round-trips through JSON (stream-bound and string-bound), XML
and binary, restoring `foo == 1` and `bar == "PLEH!"`. -/
theorem C1_roundtrip_witness :
    validDeep dPleh = true ∧ allPos dPleh = true ∧
    shapeOk dPleh vPleh = true ∧ shapeOk dPleh vPleh0 = true ∧
    toJsonStream dPleh vPleh [] =
      .ok [("foo", Value.vint 1), ("bar", Value.vstr "PLEH!")] ∧
    fromJsonStream dPleh vPleh0
      [("foo", Value.vint 1), ("bar", Value.vstr "PLEH!")] = .ok vPleh ∧
    toJsonString dPleh vPleh =
      .ok [("foo", Value.vint 1), ("bar", Value.vstr "PLEH!")] ∧
    fromJsonString dPleh vPleh0
      [("foo", Value.vint 1), ("bar", Value.vstr "PLEH!")] = .ok vPleh ∧
    toXmlString dPleh vPleh =
      .ok [("foo", Value.vint 1), ("bar", Value.vstr "PLEH!")] ∧
    fromXmlString dPleh vPleh0
      [("foo", Value.vint 1), ("bar", Value.vstr "PLEH!")] = .ok vPleh ∧
    toBinary dPleh vPleh = .ok [Value.vint 1, Value.vstr "PLEH!"] ∧
    fromBinary dPleh vPleh0 [Value.vint 1, Value.vstr "PLEH!"] = .ok vPleh := by
  have h1 : validDeep dPleh = true := by
    simp +decide [validDeep, descAll, descAllL, ctorOk, dPleh, TypeDesc.fieldNames,
      MAX_CLASS_MEMBERS, MAX_IDENTIFIER_LENGTH]
  have h2 : allPos dPleh = true := by
    simp +decide [allPos, descAll, descAllL, dPleh, TypeDesc.memberCount, TypeDesc.fieldNames]
  have h3 : shapeOk dPleh vPleh = true := by
    simp [shapeOk, shapeOkL, dPleh, vPleh, Inst.fields, Inst.baseObjs,
      TypeDesc.fieldNames, TypeDesc.bases]
  have h4 : shapeOk dPleh vPleh0 = true := by
    simp [shapeOk, shapeOkL, dPleh, vPleh0, Inst.fields, Inst.baseObjs,
      TypeDesc.fieldNames, TypeDesc.bases]
  obtain ⟨doc, ha, hb, hc, hd, he, hf, hg, hh, hi2, hj⟩ :=
    C1_roundtrip_all_backends dPleh vPleh vPleh0 h1 h2 h3 h4
  have hteval : toJsonStream dPleh vPleh [] =
      .ok [("foo", Value.vint 1), ("bar", Value.vstr "PLEH!")] := by
    simp +decide [toJsonStream, save, saveHelper, saveParents, ctorOk, storedNames,
      restringify, memberAtIndex, memberRefConst, Inst.setBase, Inst.fields, Inst.baseObjs,
      TypeDesc.fieldNames, TypeDesc.bases, TypeDesc.memberCount, TypeDesc.baseCount,
      dPleh, vPleh, MAX_CLASS_MEMBERS, MAX_IDENTIFIER_LENGTH,
      List.takeWhile, List.getD, Except.map]
  have hdoc : doc = [("foo", Value.vint 1), ("bar", Value.vstr "PLEH!")] := by
    rw [ha] at hteval
    exact Except.ok.inj hteval
  subst hdoc
  refine ⟨h1, h2, h3, h4, ha, hb, hc, hd, hg, hh, ?_, ?_⟩
  · simpa using hi2
  · simpa using hj

/-- C5 (counterexample): the claim as stated is false.  For a type with
`fieldCount == 0` and one base that has a field, the claim calls the
descriptor valid and predicts serialization succeeds; for a fieldless,
baseless type it predicts a no-op.  In the code both fail the traversal's
`static_assert(memberCount() > 0)` at build time. -/
theorem C5_counterexample :
    (TypeDesc.mk [] [TypeDesc.mk ["foo"] []]).memberCount = 0 ∧
    0 < (TypeDesc.mk [] [TypeDesc.mk ["foo"] []]).baseCount ∧
    save (TypeDesc.mk [] [TypeDesc.mk ["foo"] []])
      (Inst.mk [] [Inst.mk [Value.vint 1] []]) = .error .assertFail ∧
    save (TypeDesc.mk [] []) (Inst.mk [] []) = .error .assertFail := by
  refine ⟨by decide, by decide, ?_, ?_⟩
  · simp +decide [save, saveHelper, ctorOk, TypeDesc.fieldNames, TypeDesc.memberCount,
      MAX_CLASS_MEMBERS, MAX_IDENTIFIER_LENGTH]
  · simp +decide [save, saveHelper, ctorOk, TypeDesc.fieldNames, TypeDesc.memberCount,
      MAX_CLASS_MEMBERS, MAX_IDENTIFIER_LENGTH]

/-- C5 (amended): a descriptor for a type with `fieldCount == 0` can be
constructed (both consteval bounds hold trivially), but saving or loading
an instance of it always fails the `static_assert(memberCount() > 0)` at
build time, whether or not a base has fields; it is never a no-op. -/
theorem C5_empty_type_always_asserts (d : TypeDesc) (v : Inst)
    (h : d.fieldNames = []) :
    classMemberNames d.fieldNames = .ok [] ∧
    save d v = .error .assertFail ∧
    ∀ v0 s, load d v0 s = .error .assertFail := by
  have hm : d.memberCount = 0 := by
    rw [TypeDesc.memberCount, h]
    rfl
  have hcc : ctorOk d.fieldNames = true := by
    rw [h]
    decide
  refine ⟨?_, ?_, ?_⟩
  · rw [h]
    rfl
  · rw [save, if_neg (by simp [hcc]), saveHelper, if_neg (by simp [hcc]),
      dif_neg (by omega)]
  · intro v0 s
    rw [load, if_neg (by simp [hcc]), loadHelper, if_neg (by simp [hcc]),
      dif_neg (by omega)]

/-- C5 (witness): the fieldless type with one single-field base constructs
its descriptor but fails to serialize and to deserialize. -/
theorem C5_empty_type_witness :
    (TypeDesc.mk [] [TypeDesc.mk ["foo"] []]).fieldNames = [] ∧
    classMemberNames (TypeDesc.mk [] [TypeDesc.mk ["foo"] []]).fieldNames = .ok [] ∧
    save (TypeDesc.mk [] [TypeDesc.mk ["foo"] []])
      (Inst.mk [] [Inst.mk [Value.vint 1] []]) = .error .assertFail ∧
    load (TypeDesc.mk [] [TypeDesc.mk ["foo"] []]) (Inst.mk [] [])
      [Value.vint 1] = .error .assertFail := by
  have hmain := C5_empty_type_always_asserts (TypeDesc.mk [] [TypeDesc.mk ["foo"] []])
    (Inst.mk [] [Inst.mk [Value.vint 1] []]) rfl
  exact ⟨rfl, hmain.1, hmain.2.1, hmain.2.2 (Inst.mk [] []) [Value.vint 1]⟩

/-- C6: the traversal asserts `memberCount() > 0` and
`index < memberCount()` fatally.  Under the precondition that every
ordinal the traversal generates is in range of the descriptor it fetched —
which holds exactly when every type in the hierarchy has at least one
field, since the traversal enters every descriptor at ordinal 0 — neither
save nor load can ever fail an assert, whatever the instance or input
stream. -/
theorem C6_asserts_unreachable (d : TypeDesc) (v v0 : Inst) (s : List Value)
    (hp : allPos d = true) :
    save d v ≠ .error .assertFail ∧ load d v0 s ≠ .error .assertFail := by
  have hpos : 0 < d.memberCount := of_decide_eq_true (descAll_self _ d hp)
  constructor
  · rw [save]
    by_cases hcc : ctorOk d.fieldNames = false
    · rw [if_pos hcc]
      simp
    · rw [if_neg hcc]
      exact saveHelper_noAssert d v 0 hp hpos
  · rw [load]
    by_cases hcc : ctorOk d.fieldNames = false
    · rw [if_pos hcc]
      simp
    · rw [if_neg hcc]
      exact loadHelper_noAssert d v0 0 s hp hpos

/-- C6 (witness): concrete check on the derived/base pair, including a
truncated input stream (which fails the stream, not an assert). -/
theorem C6_asserts_witness :
    allPos dChild = true ∧
    (save dChild vChild ≠ .error .assertFail ∧
      load dChild vChild0 [] ≠ .error .assertFail) := by
  have hp : allPos dChild = true := by
    simp +decide [allPos, descAll, descAllL, dChild, dParent,
      TypeDesc.memberCount, TypeDesc.fieldNames, TypeDesc.bases]
  exact ⟨hp, C6_asserts_unreachable dChild vChild vChild0 [] hp⟩

/-- C10: the save traversal never mutates the object being saved: at every
level (`cereal::save`, `saveHelper`, `saveParents`) a successful run hands
the instance back exactly as received, reading fields only through the
value-returning `member_ref_const`. -/
theorem C10_save_const (d : TypeDesc) (v : Inst) :
    (∀ r, save d v = .ok r → r.1 = v) ∧
    (∀ idx r, saveHelper d v idx = .ok r → r.1 = v) ∧
    (∀ i r, saveParents d v i = .ok r → r.1 = v) :=
  ⟨fun r h => save_inst_eq d v r h,
   fun idx r h => saveHelper_inst_eq d v idx r h,
   fun i r h => saveParents_inst_eq d v i r h⟩

/-- C10 (witness): saving the concrete two-field instance returns it
untouched. -/
theorem C10_save_const_witness :
    save dPleh vPleh =
      .ok (vPleh, [("foo", Value.vint 1), ("bar", Value.vstr "PLEH!")]) ∧
    (vPleh, [("foo", Value.vint 1), ("bar", Value.vstr "PLEH!")]).1 = vPleh := by
  have hsave : save dPleh vPleh =
      .ok (vPleh, [("foo", Value.vint 1), ("bar", Value.vstr "PLEH!")]) := by
    simp +decide [save, saveHelper, saveParents, ctorOk, storedNames, restringify,
      memberAtIndex, memberRefConst, Inst.setBase, Inst.fields, Inst.baseObjs,
      TypeDesc.fieldNames, TypeDesc.bases, TypeDesc.memberCount, TypeDesc.baseCount,
      dPleh, vPleh, MAX_CLASS_MEMBERS, MAX_IDENTIFIER_LENGTH,
      List.takeWhile, List.getD]
  exact ⟨hsave, (C10_save_const dPleh vPleh).1 _ hsave⟩

/-- C2: every direct base is processed exactly once, in declaration order,
before any direct field — the engine's save trace equals the
specification trace (base traces first, own named fields after) — and
loading the resulting stream restores the full instance, bases included. -/
theorem C2_bases_before_fields (d : TypeDesc) (v v0 : Inst)
    (h1 : validDeep d = true) (h2 : allPos d = true) (h3 : noEmptyNames d = true)
    (h4 : shapeOk d v = true) (h5 : shapeOk d v0 = true) :
    save d v = .ok (v, saveSpec d v) ∧
    load d v0 ((saveSpec d v).map Prod.snd) = .ok (v, []) := by
  obtain ⟨evs, hsave, hload, hlen⟩ := save_load_ok d v v0 h1 h2 h4 h5
  have hcc : ctorOk d.fieldNames = true := descAll_self _ d h1
  have hsh : saveHelper d v 0 = .ok (v, evs) := by
    rw [save, if_neg (by simp [hcc])] at hsave
    exact hsave
  have hspec := saveHelper_spec d v 0 evs h4 h3 hsh
  rw [if_pos rfl] at hspec
  simp only [List.drop_zero] at hspec
  rw [← saveSpec_unfold] at hspec
  rw [← hspec]
  exact ⟨hsave, hload⟩

/-- C2 (witness): for the derived type whose base contributes `foo = 22`
and which itself contributes `bar = 42`, the serialized form lists `foo`
before `bar` and the round trip restores both values. -/
theorem C2_bases_before_fields_witness :
    validDeep dChild = true ∧ allPos dChild = true ∧ noEmptyNames dChild = true ∧
    shapeOk dChild vChild = true ∧ shapeOk dChild vChild0 = true ∧
    save dChild vChild = .ok (vChild, [("foo", Value.vint 22), ("bar", Value.vint 42)]) ∧
    load dChild vChild0 [Value.vint 22, Value.vint 42] = .ok (vChild, []) := by
  have h1 : validDeep dChild = true := by
    simp +decide [validDeep, descAll, descAllL, ctorOk, dChild, dParent,
      TypeDesc.fieldNames, TypeDesc.bases, MAX_CLASS_MEMBERS, MAX_IDENTIFIER_LENGTH]
  have h2 : allPos dChild = true := by
    simp +decide [allPos, descAll, descAllL, dChild, dParent,
      TypeDesc.memberCount, TypeDesc.fieldNames, TypeDesc.bases]
  have h3 : noEmptyNames dChild = true := by
    simp +decide [noEmptyNames, descAll, descAllL, dChild, dParent,
      TypeDesc.fieldNames, TypeDesc.bases]
  have h4 : shapeOk dChild vChild = true := by
    simp [shapeOk, shapeOkL, dChild, dParent, vChild, Inst.fields, Inst.baseObjs,
      TypeDesc.fieldNames, TypeDesc.bases]
  have h5 : shapeOk dChild vChild0 = true := by
    simp [shapeOk, shapeOkL, dChild, dParent, vChild0, Inst.fields, Inst.baseObjs,
      TypeDesc.fieldNames, TypeDesc.bases]
  have hspec : saveSpec dChild vChild = [("foo", Value.vint 22), ("bar", Value.vint 42)] := by
    simp [saveSpec, saveSpecL, dChild, dParent, vChild, TypeDesc.bases,
      TypeDesc.fieldNames, Inst.fields, Inst.baseObjs, List.zip]
  have hmain := C2_bases_before_fields dChild vChild vChild0 h1 h2 h3 h4 h5
  rw [hspec] at hmain
  refine ⟨h1, h2, h3, h4, h5, hmain.1, ?_⟩
  have h7 := hmain.2
  simpa using h7

/-- C3: on save every field is handed to the archive paired with its
declared name from the descriptor, ordinals 0..fieldCount-1 in
declaration order (the trace's names are exactly the flattened declared
names and its values the flattened field values); on load the fields are
consumed positionally — the result depends only on the values of the
incoming document, never on its names. -/
theorem C3_named_save_positional_load (d : TypeDesc) (v v0 : Inst)
    (h1 : validDeep d = true) (h2 : allPos d = true) (h3 : noEmptyNames d = true)
    (h4 : shapeOk d v = true) :
    (∀ evs, save d v = .ok (v, evs) →
      evs.map Prod.fst = flatNames d ∧ evs.map Prod.snd = flatVals v) ∧
    (∀ doc1 doc2, doc1.map Prod.snd = doc2.map Prod.snd →
      fromJsonStream d v0 doc1 = fromJsonStream d v0 doc2 ∧
      fromXmlStream d v0 doc1 = fromXmlStream d v0 doc2) := by
  constructor
  · intro evs hsave
    have hcc : ctorOk d.fieldNames = true := descAll_self _ d h1
    have hsh : saveHelper d v 0 = .ok (v, evs) := by
      rw [save, if_neg (by simp [hcc])] at hsave
      exact hsave
    have hspec := saveHelper_spec d v 0 evs h4 h3 hsh
    rw [if_pos rfl] at hspec
    simp only [List.drop_zero] at hspec
    rw [← saveSpec_unfold] at hspec
    rw [hspec]
    exact saveSpec_proj d v h4
  · intro doc1 doc2 hvals
    constructor
    · rw [fromJsonStream, fromJsonStream, hvals]
    · rw [fromXmlStream, fromXmlStream, hvals]

/-- C3 (witness): the derived scenario's save trace carries the declared
names `foo`, `bar` with the values 22, 42; relabelling the document's
names does not change what load produces. -/
theorem C3_named_save_positional_load_witness :
    save dChild vChild = .ok (vChild, [("foo", Value.vint 22), ("bar", Value.vint 42)]) ∧
    [("foo", Value.vint 22), ("bar", Value.vint 42)].map Prod.fst = flatNames dChild ∧
    [("foo", Value.vint 22), ("bar", Value.vint 42)].map Prod.snd = flatVals vChild ∧
    fromJsonStream dChild vChild0 [("foo", Value.vint 22), ("bar", Value.vint 42)] =
      fromJsonStream dChild vChild0 [("baz", Value.vint 22), ("qux", Value.vint 42)] := by
  have h1 : validDeep dChild = true := by
    simp +decide [validDeep, descAll, descAllL, ctorOk, dChild, dParent,
      TypeDesc.fieldNames, TypeDesc.bases, MAX_CLASS_MEMBERS, MAX_IDENTIFIER_LENGTH]
  have h2 : allPos dChild = true := by
    simp +decide [allPos, descAll, descAllL, dChild, dParent,
      TypeDesc.memberCount, TypeDesc.fieldNames, TypeDesc.bases]
  have h3 : noEmptyNames dChild = true := by
    simp +decide [noEmptyNames, descAll, descAllL, dChild, dParent,
      TypeDesc.fieldNames, TypeDesc.bases]
  have h4 : shapeOk dChild vChild = true := by
    simp [shapeOk, shapeOkL, dChild, dParent, vChild, Inst.fields, Inst.baseObjs,
      TypeDesc.fieldNames, TypeDesc.bases]
  have hsave : save dChild vChild =
      .ok (vChild, [("foo", Value.vint 22), ("bar", Value.vint 42)]) := by
    simp +decide [save, saveHelper, saveParents, ctorOk, storedNames, restringify,
      memberAtIndex, memberRefConst, Inst.setBase, Inst.fields, Inst.baseObjs,
      TypeDesc.fieldNames, TypeDesc.bases, TypeDesc.memberCount, TypeDesc.baseCount,
      dChild, dParent, vChild, MAX_CLASS_MEMBERS, MAX_IDENTIFIER_LENGTH,
      List.takeWhile, List.getD, List.get?, List.set]
  have hmain := C3_named_save_positional_load dChild vChild vChild0 h1 h2 h3 h4
  have hproj := hmain.1 [("foo", Value.vint 22), ("bar", Value.vint 42)] hsave
  have hpos := (hmain.2 [("foo", Value.vint 22), ("bar", Value.vint 42)]
    [("baz", Value.vint 22), ("qux", Value.vint 42)] (by simp)).1
  exact ⟨hsave, hproj.1, hproj.2, hpos⟩

/-- C4 (counterexample): the claim as stated is false.  255 one-character
field names are strictly within both stated bounds (255 < 256 fields, each
name length 1 < 256), yet descriptor construction fails: the code asserts
`members.size() < MAX_CLASS_MEMBERS - 1`, rejecting 255 fields. -/
theorem C4_counterexample :
    (List.replicate 255 "a").length < MAX_CLASS_MEMBERS ∧
    (∀ n ∈ List.replicate 255 "a", n.length < MAX_IDENTIFIER_LENGTH) ∧
    classMemberNames (List.replicate 255 "a") = .error .ctorFail := by
  refine ⟨?_, ?_, ?_⟩
  · simp +decide [MAX_CLASS_MEMBERS]
  · intro n hn
    rw [List.eq_of_mem_replicate hn]
    decide
  · simp +decide [classMemberNames, ctorOk, MAX_CLASS_MEMBERS]

/-- C4 (amended): descriptor construction fails if and only if the field
count is at least `MAX_CLASS_MEMBERS - 1` (one below the configured
maximum, keeping a null-terminated sentinel slot) or some field name's
length is at least `MAX_IDENTIFIER_LENGTH`; within those bounds it
succeeds and returns the names without truncation. -/
theorem C4_construction_bounds (names : List String) :
    (classMemberNames names = .error .ctorFail ↔
      MAX_CLASS_MEMBERS - 1 ≤ names.length ∨
        ∃ n ∈ names, MAX_IDENTIFIER_LENGTH ≤ n.length) ∧
    ∀ ns, classMemberNames names = .ok ns → ns = names := by
  constructor
  · rw [classMemberNames]
    by_cases hc : ctorOk names = true
    · rw [if_pos hc]
      have hR : ¬ (MAX_CLASS_MEMBERS - 1 ≤ names.length ∨
          ∃ n ∈ names, MAX_IDENTIFIER_LENGTH ≤ n.length) := by
        rw [ctorOk] at hc
        have h2 := Bool.and_eq_true_iff.mp hc
        have hlen := of_decide_eq_true h2.1
        intro hcon
        rcases hcon with hcon | ⟨n, hn, hlenn⟩
        · omega
        · have := of_decide_eq_true (List.all_eq_true.mp h2.2 n hn)
          omega
      exact iff_of_false (by simp) hR
    · have hc2 : ctorOk names = false := by
        simpa using hc
      rw [if_neg hc]
      refine iff_of_true rfl ?_
      rw [ctorOk] at hc2
      rcases Bool.and_eq_false_iff.mp hc2 with hf | hf
      · left
        have := of_decide_eq_false hf
        omega
      · right
        obtain ⟨n, hn, hnf⟩ := List.all_eq_false.mp hf
        refine ⟨n, hn, ?_⟩
        simp at hnf
        omega
  · intro ns h
    rw [classMemberNames] at h
    split at h
    · injection h with h2
      exact h2.symm
    · exact absurd h (by simp)

/-- C4 (witness): a well-bounded two-name descriptor constructs untruncated,
and a single 256-character name is rejected. -/
theorem C4_construction_bounds_witness :
    classMemberNames ["foo", "bar"] = .ok ["foo", "bar"] ∧
    classMemberNames [String.mk (List.replicate 256 (Char.ofNat 97))] = .error .ctorFail := by
  constructor
  · rfl
  · apply (C4_construction_bounds [String.mk (List.replicate 256 (Char.ofNat 97))]).1.mpr
    right
    refine ⟨String.mk (List.replicate 256 (Char.ofNat 97)), by simp, ?_⟩
    simp [String.length, MAX_IDENTIFIER_LENGTH]

/-- C7: on an acyclic hierarchy (every descriptor is a finite tree, so no
type is its own ancestor) the traversal terminates: a successful save
visits every field of the hierarchy exactly once — the trace has exactly
`totalFields` events, ending after the last direct field — and the
engine's recursion depth in type-level frames is the number of ancestor
levels plus one. -/
theorem C7_terminates_depth (d : TypeDesc) (v : Inst)
    (h1 : validDeep d = true) (h2 : allPos d = true) (h3 : shapeOk d v = true) :
    (∃ evs, save d v = .ok (v, evs) ∧ evs.length = totalFields d) ∧
    engineDepth d = ancestorLevels d + 1 := by
  constructor
  · obtain ⟨evs, hsave, hload, hlen⟩ := save_load_ok d v v h1 h2 h3 h3
    exact ⟨evs, hsave, hlen⟩
  · rw [engineDepth, traverseDepthH_eq]
    omega

/-- C7 (witness): the derived/base pair has one ancestor level, engine
depth two, and its save trace carries exactly its two fields. -/
theorem C7_terminates_depth_witness :
    validDeep dChild = true ∧ allPos dChild = true ∧ shapeOk dChild vChild = true ∧
    save dChild vChild = .ok (vChild, [("foo", Value.vint 22), ("bar", Value.vint 42)]) ∧
    totalFields dChild = 2 ∧ ancestorLevels dChild = 1 ∧
    engineDepth dChild = ancestorLevels dChild + 1 := by
  have h1 : validDeep dChild = true := by
    simp +decide [validDeep, descAll, descAllL, ctorOk, dChild, dParent,
      TypeDesc.fieldNames, TypeDesc.bases, MAX_CLASS_MEMBERS, MAX_IDENTIFIER_LENGTH]
  have h2 : allPos dChild = true := by
    simp +decide [allPos, descAll, descAllL, dChild, dParent,
      TypeDesc.memberCount, TypeDesc.fieldNames, TypeDesc.bases]
  have h3 : shapeOk dChild vChild = true := by
    simp [shapeOk, shapeOkL, dChild, dParent, vChild, Inst.fields, Inst.baseObjs,
      TypeDesc.fieldNames, TypeDesc.bases]
  have hsave : save dChild vChild =
      .ok (vChild, [("foo", Value.vint 22), ("bar", Value.vint 42)]) := by
    simp +decide [save, saveHelper, saveParents, ctorOk, storedNames, restringify,
      memberAtIndex, memberRefConst, Inst.setBase, Inst.fields, Inst.baseObjs,
      TypeDesc.fieldNames, TypeDesc.bases, TypeDesc.memberCount, TypeDesc.baseCount,
      dChild, dParent, vChild, MAX_CLASS_MEMBERS, MAX_IDENTIFIER_LENGTH,
      List.takeWhile, List.getD, List.get?, List.set]
  refine ⟨h1, h2, h3, hsave, ?_, ?_, (C7_terminates_depth dChild vChild h1 h2 h3).2⟩
  · simp [totalFields, totalFieldsL, dChild, dParent, TypeDesc.fieldNames, TypeDesc.bases]
  · simp [ancestorLevels, ancestorLevelsL, dChild, dParent, TypeDesc.bases]

/-- C8: the first singleton lookup for a type builds the descriptor and
stores it; after any further sequence of lookups within the same process
run, looking the type up again returns the identical stored name sequence
and leaves the cache unmodified — the descriptor is never rebuilt or
mutated. -/
theorem C8_cache_built_once_stable (p : Nat → List String) (c : DescCache) (t : Nat)
    (ns : List String) (c1 : DescCache)
    (h : instanceLookup p c t = .ok (ns, c1)) :
    c1.find? (fun e => e.fst == t) = some (t, ns) ∧
    ∀ ts, instanceLookup p (runLookups p c1 ts) t =
      .ok (ns, runLookups p c1 ts) := by
  have hfind := instanceLookup_ok_find p c t ns c1 h
  refine ⟨hfind, fun ts => ?_⟩
  have hpres := runLookups_preserves_find p (fun e => e.fst == t) (t, ns) ts c1 hfind
  exact instanceLookup_of_find p (runLookups p c1 ts) t ns hpres

/-- C8 (witness): with a provider reflecting `{foo, bar}`, the first
lookup of type 7 stores the descriptor; after intervening lookups of other
types, looking 7 up again yields the same stored sequence without
modifying the cache. -/
theorem C8_cache_witness :
    instanceLookup (fun _ => ["foo", "bar"]) [] 7 =
      .ok (["foo", "bar"], [(7, ["foo", "bar"])]) ∧
    instanceLookup (fun _ => ["foo", "bar"])
        (runLookups (fun _ => ["foo", "bar"]) [(7, ["foo", "bar"])] [3, 7, 5]) 7 =
      .ok (["foo", "bar"],
        runLookups (fun _ => ["foo", "bar"]) [(7, ["foo", "bar"])] [3, 7, 5]) := by
  have hlk : instanceLookup (fun _ => ["foo", "bar"]) [] 7 =
      .ok (["foo", "bar"], [(7, ["foo", "bar"])]) := rfl
  exact ⟨hlk,
    (C8_cache_built_once_stable (fun _ => ["foo", "bar"]) [] 7 ["foo", "bar"]
      [(7, ["foo", "bar"])] hlk).2 [3, 7, 5]⟩

/-- C9: if two fields of a saved object share one target identity, then in
one save the target's payload is written exactly once (other occurrences
are back-references), after the round trip both restored fields hold one
and the same address, and a write through one is read back through the
other. -/
theorem C9_shared_once_one_instance (heap : List Value) (fields : List Nat)
    (i j a : Nat) (hij : i < j) (hjlen : j < fields.length)
    (hia : fields.getD i 0 = a) (hja : fields.getD j 0 = a) :
    payloadCountFor (saveShared heap fields) fields a = 1 ∧
    (loadShared (saveShared heap fields)).1.getD i 0 =
      (loadShared (saveShared heap fields)).1.getD j 0 ∧
    ∀ w, ((loadShared (saveShared heap fields)).2.set
        ((loadShared (saveShared heap fields)).1.getD i 0) w).getD
        ((loadShared (saveShared heap fields)).1.getD j 0) (Value.vint 0) = w := by
  have hilen : i < fields.length := by omega
  have hmem : a ∈ fields := by
    rw [← hja, List.getD_eq_getElem _ _ hjlen]
    exact List.getElem_mem hjlen
  obtain ⟨hlen, hgrow, hvalid, φ, hφ, hmap⟩ :=
    sharedGo_master heap fields [] [] [] rfl (by simp)
  have hss : saveShared heap fields = saveSharedGo heap [] fields := rfl
  have hls : loadShared (saveSharedGo heap [] fields) =
      loadSharedGo [] [] (saveSharedGo heap [] fields) := rfl
  have hout : ∀ k, k < fields.length →
      (loadSharedGo [] [] (saveSharedGo heap [] fields)).1.getD k 0 =
        φ (fields.getD k 0) := by
    intro k hk
    rw [hmap]
    rw [List.getD_eq_getElem _ _ (by simpa using hk)]
    rw [List.getElem_map]
    rw [← List.getD_eq_getElem fields 0 hk]
  have heq12 : (loadSharedGo [] [] (saveSharedGo heap [] fields)).1.getD i 0 =
      (loadSharedGo [] [] (saveSharedGo heap [] fields)).1.getD j 0 := by
    rw [hout i hilen, hout j hjlen, hia, hja]
  refine ⟨?_, ?_, ?_⟩
  · rw [hss]
    have hcount := payloadCount_once heap fields [] a
    rw [hcount]
    simp [hmem]
  · rw [hss, hls]
    exact heq12
  · intro w
    rw [hss, hls]
    rw [← heq12]
    have houti := hvalid i hilen
    have hlt : (loadSharedGo [] [] (saveSharedGo heap [] fields)).1.getD i 0 <
        ((loadSharedGo [] [] (saveSharedGo heap [] fields)).2.set
          ((loadSharedGo [] [] (saveSharedGo heap [] fields)).1.getD i 0) w).length := by
      simp only [List.length_set]
      exact houti
    rw [List.getD_eq_getElem _ _ hlt]
    exact List.getElem_set_self hlt

/-- C9 (witness): a two-field object whose fields share one target: the
payload is written once, both restored fields hold the same address, and a
write through the first is visible through the second. -/
theorem C9_shared_witness :
    payloadCountFor (saveShared [Value.vstr "womble"] [0, 0]) [0, 0] 0 = 1 ∧
    (loadShared (saveShared [Value.vstr "womble"] [0, 0])).1.getD 0 0 =
      (loadShared (saveShared [Value.vstr "womble"] [0, 0])).1.getD 1 0 ∧
    ((loadShared (saveShared [Value.vstr "womble"] [0, 0])).2.set
        ((loadShared (saveShared [Value.vstr "womble"] [0, 0])).1.getD 0 0)
        (Value.vstr "changed")).getD
      ((loadShared (saveShared [Value.vstr "womble"] [0, 0])).1.getD 1 0)
      (Value.vint 0) = Value.vstr "changed" := by
  have hmain := C9_shared_once_one_instance [Value.vstr "womble"] [0, 0] 0 1 0
    (by decide) (by decide) (by decide) (by decide)
  exact ⟨hmain.1, hmain.2.1, hmain.2.2 (Value.vstr "changed")⟩

end AutoCereal
